import Mathlib

set_option linter.unusedVariables false
set_option maxRecDepth 8000

/-!
Verification of the MinecraftBot protocol client against its design
specification.  The Lean definitions below are shallow embeddings of the
Rust sources: `src/datatypes/varint.rs` (variable-length integers),
`src/datatypes/mod.rs` (the serialize/deserialize contract, strings),
`src/data/stream.rs` (the bounded stream), `src/packets/receive.rs`
(framing and dispatch), `src/nbt.rs` (the NBT tree codec) and
`src/game/world/palette.rs` (palette storage).

Machine integers are modelled as `Nat`/`Int` with explicit reductions
`% 2 ^ w` at the points where the Rust code truncates, and with `Int.fdiv`
(floor division) for arithmetic right shifts of signed values.  A Rust
panic (a failed `assert!`, an out-of-bounds index, a division by zero or
an overflowing shift) is modelled as `Option.none`; a diverging loop is
modelled with fuel, `none` meaning the loop did not terminate within the
given fuel.
-/

namespace MData

/-- Ceiling division, the model of Rust `usize::div_ceil`. -/
def divCeil (a b : Nat) : Nat := (a + b - 1) / b

/-- Bit length of a natural number (0 for 0); `w - bitLen p` is the
`leading_zeros` of a `w`-bit pattern `p`. -/
def bitLen (n : Nat) : Nat := if n = 0 then 0 else Nat.log2 n + 1

/-- Reinterpret a `w`-bit pattern as a signed two's complement value. -/
def toSigned (w : Nat) (p : Nat) : Int :=
  if p < 2 ^ (w - 1) then (p : Int) else (p : Int) - 2 ^ w

/-- Two's complement `w`-bit pattern of a signed value (the `as uN` cast). -/
def toPattern (w : Nat) (v : Int) : Nat := (v % ((2 : Int) ^ w)).toNat

theorem bitLen_lt (n : Nat) : n < 2 ^ bitLen n := by
  unfold bitLen
  split
  · simp_all
  · exact Nat.lt_log2_self

theorem bitLen_le (n k : Nat) (h : n < 2 ^ k) : bitLen n ≤ k := by
  unfold bitLen
  split
  · exact Nat.zero_le _
  · have := (Nat.log2_lt (by assumption)).mpr h
    omega

theorem testBit_eq_false_of_lt_pow {x k i : Nat} (hx : x < 2 ^ k) (hk : k ≤ i) :
    x.testBit i = false :=
  Nat.testBit_lt_two_pow (lt_of_lt_of_le hx (Nat.pow_le_pow_right (by norm_num) hk))

theorem land_two_pow_sub_one (x k : Nat) : x &&& (2 ^ k - 1) = x % 2 ^ k := by
  apply Nat.eq_of_testBit_eq
  intro i
  simp [Nat.testBit_land, Nat.testBit_two_pow_sub_one, Nat.testBit_mod_two_pow,
    Bool.and_comm]

theorem land_two_pow_eq_zero {x k : Nat} (h : x < 2 ^ k) : x &&& 2 ^ k = 0 := by
  apply Nat.eq_of_testBit_eq
  intro i
  simp only [Nat.testBit_land, Nat.testBit_two_pow, Nat.zero_testBit]
  by_cases hik : k = i
  · subst hik
    simp [Nat.testBit_lt_two_pow h]
  · simp [hik]

theorem lor_two_pow_land (a k : Nat) : (a ||| 2 ^ k) &&& 2 ^ k = 2 ^ k := by
  apply Nat.eq_of_testBit_eq
  intro i
  simp only [Nat.testBit_land, Nat.testBit_lor, Nat.testBit_two_pow]
  by_cases hik : k = i <;> simp [hik]

theorem shiftLeft_lor (a b k : Nat) : (a ||| b) <<< k = a <<< k ||| b <<< k := by
  apply Nat.eq_of_testBit_eq
  intro i
  simp [Nat.testBit_lor, Nat.testBit_shiftLeft, Bool.and_or_distrib_left]

theorem shiftLeft_shiftLeft (a j k : Nat) : (a <<< j) <<< k = a <<< (j + k) := by
  apply Nat.eq_of_testBit_eq
  intro i
  simp only [Nat.testBit_shiftLeft, ge_iff_le]
  by_cases h1 : k ≤ i
  · by_cases h2 : j + k ≤ i
    · have hj : j ≤ i - k := by omega
      have he : i - k - j = i - (j + k) := by omega
      simp [h1, h2, hj, he]
    · have hj : ¬ j ≤ i - k := by omega
      simp [h1, h2, hj]
  · have h2 : ¬ j + k ≤ i := by omega
    simp [h1, h2]

theorem mod_lor_div_shift (x k : Nat) : x % 2 ^ k ||| (x / 2 ^ k) <<< k = x := by
  apply Nat.eq_of_testBit_eq
  intro i
  rw [← Nat.shiftRight_eq_div_pow]
  simp only [Nat.testBit_lor, Nat.testBit_shiftLeft, Nat.testBit_mod_two_pow,
    Nat.testBit_shiftRight, ge_iff_le]
  by_cases h : i < k
  · have hk : ¬ k ≤ i := by omega
    simp [h, hk]
  · have hk : k ≤ i := by omega
    have he : k + (i - k) = i := by omega
    simp [h, hk, he]

end MData

namespace MBot

open MData

/-! ### Error types (src/data.rs, src/nbt.rs)

The Rust error payloads that are only human-readable messages are dropped;
the variants themselves are kept. -/

/-- Model of `NbtError` (src/nbt.rs). -/
inductive NbtErr where
  | negativeArrayLength (len : Int)
  | negativeListLength (len : Int)
  | invalidUtf8
  | endInList
  | sameName (name : List Nat)
  | unknownType (id : Nat)
  | malformedRoot
deriving DecidableEq

/-- Model of `DeserializeError` (src/data.rs): an I/O failure, a malformed
packet, or an NBT error. -/
inductive DeErr where
  | ioErr
  | malformedPacket
  | nbtErr (e : NbtErr)
deriving DecidableEq

/-- Whether a `DeserializeError` is the I/O variant. -/
def DeErr.isIo : DeErr → Bool
  | .ioErr => true
  | _ => false

/-! ### VarInt / VarLong (src/datatypes/varint.rs)

`VarInt` wraps an `i32` (`wbits = 32`, `maxLen = 5`), `VarLong` an `i64`
(`wbits = 64`, `maxLen = 10`).  The serialize loop operates on the signed
value: `val & 0x7F` is `val % 128` (mathematical modulus), the arithmetic
right shift `val >>= 7` is floor division `Int.fdiv val 128`, and
`data |= 0x80` is a bitwise or with 128. -/

/-- The `while val != 0` loop of `VarInt::serialize`, with fuel counting
body iterations.  `none` means the loop did not terminate within `fuel`
iterations. -/
def varSerLoop (fuel : Nat) (val : Int) : Option (List Nat) :=
  if val = 0 then some []
  else
    match fuel with
    | 0 => none
    | fuel + 1 =>
      let data := (val % 128).toNat
      let val2 := Int.fdiv val 128
      let byte := if val2 = 0 then data else data ||| 128
      Option.map (fun rest => byte :: rest) (varSerLoop fuel val2)

/-- Model of `VarInt::serialize` / `VarLong::serialize`: zero writes the
single byte 0, otherwise the emit loop runs (with fuel). -/
def varSerialize (fuel : Nat) (v : Int) : Option (List Nat) :=
  if v = 0 then some [0] else varSerLoop fuel v

/-- Model of `VarInt::size`: `BITS.saturating_sub(leading_zeros)` bits,
divided by 7 rounding up (1 for zero). -/
def varSize (wbits : Nat) (v : Int) : Nat :=
  if v = 0 then 1
  else
    let lz := wbits - bitLen (toPattern wbits v)
    divCeil (wbits - lz) 7

/-- The read loop of `VarInt::read_` over a raw byte sequence (the
`max_size` argument is `None` in every call of the source, so it is not
modelled).  Each byte contributes its low 7 bits at shift `7 * i`; the
shifted chunk is truncated to `wbits` bits as the Rust `<<` on `iN`
discards high bits.  An exhausted byte source is an I/O error. -/
def varReadLoop (wbits maxLen : Nat) (bytes : List Nat) (i val : Nat) :
    Except DeErr (Nat × List Nat) :=
  if i = maxLen then .error .malformedPacket
  else
    match bytes with
    | [] => .error .ioErr
    | b :: rest =>
      let val2 := val ||| ((b &&& 0x7F) <<< (7 * i)) % 2 ^ wbits
      if b &&& 0x80 = 0 then .ok (val2, rest)
      else varReadLoop wbits maxLen rest (i + 1) val2

/-- Model of `VarInt::read` (and `VarLong::read`): run the loop from the
start and reinterpret the accumulated pattern as a signed value. -/
def varRead (wbits maxLen : Nat) (bytes : List Nat) : Except DeErr (Int × List Nat) :=
  Except.map (fun p => (toSigned wbits p.1, p.2)) (varReadLoop wbits maxLen bytes 0 0)

/-- The byte sequence the serialize loop emits for a positive value.  This
is the reference form used in proofs; `varSerLoop_eq_natBytes` shows the
fueled loop produces exactly it. -/
def natBytes : Nat → List Nat
  | v =>
    if _h : v < 128 then [v]
    else (v % 128 ||| 128) :: natBytes (v / 128)
decreasing_by exact Nat.div_lt_self (by omega) (by norm_num)

theorem natBytes_small {v : Nat} (h : v < 128) : natBytes v = [v] := by
  rw [natBytes, dif_pos h]

theorem natBytes_large {v : Nat} (h : ¬ v < 128) :
    natBytes v = (v % 128 ||| 128) :: natBytes (v / 128) := by
  rw [natBytes, dif_neg h]

theorem natBytes_length_le (k : Nat) :
    ∀ v, 0 < v → v < 2 ^ (7 * k) → (natBytes v).length ≤ k := by
  induction k with
  | zero => intro v hv hlt; simp at hlt; omega
  | succ k ih =>
    intro v hv hlt
    by_cases hsmall : v < 128
    · rw [natBytes_small hsmall]
      simp only [List.length_singleton]
      omega
    · rw [natBytes_large hsmall]
      have h2 : v / 128 < 2 ^ (7 * k) := by
        apply Nat.div_lt_of_lt_mul
        calc v < 2 ^ (7 * (k + 1)) := hlt
        _ = 128 * 2 ^ (7 * k) := by ring
      have h3 : 0 < v / 128 := Nat.div_pos (by omega) (by norm_num)
      simpa using ih (v / 128) h3 h2

theorem varSerLoop_zero (fuel : Nat) : varSerLoop fuel 0 = some [] := by
  rw [varSerLoop.eq_def]
  simp

theorem varSerLoop_eq_natBytes :
    ∀ (fuel : Nat) (v : Nat), 0 < v → (natBytes v).length ≤ fuel →
      varSerLoop fuel (v : Int) = some (natBytes v) := by
  intro fuel
  induction fuel with
  | zero =>
    intro v hv hlen
    by_cases hsmall : v < 128
    · rw [natBytes_small hsmall] at hlen; simp at hlen
    · rw [natBytes_large hsmall] at hlen; simp at hlen
  | succ fuel ih =>
    intro v hv hlen
    have hne : (v : Int) ≠ 0 := by exact_mod_cast Nat.pos_iff_ne_zero.mp hv
    have hmod : ((v : Int) % 128).toNat = v % 128 := by norm_cast
    have hdiv : Int.fdiv (v : Int) 128 = ((v / 128 : Nat) : Int) := by
      rw [show ((128 : Int)) = ((128 : Nat) : Int) by norm_num, Int.ofNat_fdiv]
    rw [varSerLoop.eq_def, if_neg hne]
    simp only [hmod, hdiv]
    by_cases hsmall : v < 128
    · have hz : v / 128 = 0 := Nat.div_eq_of_lt hsmall
      rw [natBytes_small hsmall]
      simp [hz, Nat.mod_eq_of_lt hsmall, varSerLoop_zero]
    · have hd : 0 < v / 128 := Nat.div_pos (by omega) (by norm_num)
      have hdne : ((v / 128 : Nat) : Int) ≠ 0 := by
        exact_mod_cast Nat.pos_iff_ne_zero.mp hd
      have hlen2 : (natBytes (v / 128)).length ≤ fuel := by
        rw [natBytes_large hsmall] at hlen
        simpa using hlen
      rw [if_neg hdne, ih (v / 128) hd hlen2, natBytes_large hsmall]
      rfl

theorem varReadLoop_natBytes (wbits maxLen : Nat) :
    ∀ (v : Nat), 0 < v → ∀ (i val : Nat) (rest : List Nat),
      v * 2 ^ (7 * i) < 2 ^ wbits →
      (natBytes v).length + i ≤ maxLen →
      varReadLoop wbits maxLen (natBytes v ++ rest) i val =
        .ok (val ||| v <<< (7 * i), rest) := by
  intro v
  induction v using Nat.strong_induction_on with
  | _ v ih =>
    intro hv i val rest htrunc hlen
    by_cases hsmall : v < 128
    · rw [natBytes_small hsmall] at hlen ⊢
      have hi : i ≠ maxLen := by simp at hlen; omega
      rw [varReadLoop.eq_def, if_neg hi]
      simp only [List.cons_append]
      have hv7 : v < 2 ^ 7 := by norm_num; omega
      have hand : v &&& 0x7F = v := by
        have h7 : (0x7F : Nat) = 2 ^ 7 - 1 := by norm_num
        rw [h7, land_two_pow_sub_one]
        exact Nat.mod_eq_of_lt hv7
      have hcont : v &&& 0x80 = 0 := by
        have h8 : (0x80 : Nat) = 2 ^ 7 := by norm_num
        rw [h8]
        exact land_two_pow_eq_zero hv7
      have hmod : (v <<< (7 * i)) % 2 ^ wbits = v <<< (7 * i) := by
        apply Nat.mod_eq_of_lt
        rw [Nat.shiftLeft_eq]
        exact htrunc
      simp [hand, hcont, hmod]
    · rw [natBytes_large hsmall] at hlen ⊢
      have hi : i ≠ maxLen := by simp at hlen; omega
      rw [varReadLoop.eq_def, if_neg hi]
      simp only [List.cons_append]
      have hm7 : v % 128 < 2 ^ 7 := by
        have := Nat.mod_lt v (show 0 < 128 by norm_num)
        norm_num
        omega
      have hand : (v % 128 ||| 128) &&& 0x7F = v % 128 := by
        have h7 : (0x7F : Nat) = 2 ^ 7 - 1 := by norm_num
        rw [h7, land_two_pow_sub_one]
        apply Nat.eq_of_testBit_eq
        intro j
        simp only [Nat.testBit_mod_two_pow, Nat.testBit_lor]
        by_cases hj : j < 7
        · have hb : (128 : Nat).testBit j = false := by
            rw [show (128 : Nat) = 2 ^ 7 by norm_num, Nat.testBit_two_pow]
            simp
            omega
          simp [hj, hb]
        · have hb : (v % 128).testBit j = false :=
            testBit_eq_false_of_lt_pow hm7 (by omega)
          simp [hj, hb]
      have hcont : (v % 128 ||| 128) &&& 0x80 ≠ 0 := by
        have hl := lor_two_pow_land (v % 128) 7
        norm_num at hl
        show (v % 128 ||| 128) &&& 128 ≠ 0
        rw [hl]
        norm_num
      have hmodeq : ((v % 128) <<< (7 * i)) % 2 ^ wbits = (v % 128) <<< (7 * i) := by
        apply Nat.mod_eq_of_lt
        rw [Nat.shiftLeft_eq]
        calc v % 128 * 2 ^ (7 * i) ≤ v * 2 ^ (7 * i) :=
              Nat.mul_le_mul_right _ (Nat.mod_le _ _)
        _ < 2 ^ wbits := htrunc
      rw [hand]
      simp only [hcont, if_neg, hmodeq]
      have hd : 0 < v / 128 := Nat.div_pos (by omega) (by norm_num)
      have hrec := ih (v / 128) (Nat.div_lt_self (by omega) (by norm_num)) hd
        (i + 1) (val ||| (v % 128) <<< (7 * i)) rest
        (by
          calc v / 128 * 2 ^ (7 * (i + 1)) = v / 128 * 128 * 2 ^ (7 * i) := by ring
          _ ≤ v * 2 ^ (7 * i) := Nat.mul_le_mul_right _ (Nat.div_mul_le_self v 128)
          _ < 2 ^ wbits := htrunc)
        (by simp at hlen; omega)
      rw [if_neg not_false, hrec]
      congr 2
      rw [Nat.lor_assoc]
      congr 1
      rw [show (7 : Nat) * (i + 1) = 7 + 7 * i by ring, ← shiftLeft_shiftLeft,
        ← shiftLeft_lor]
      congr 1
      have hmd := mod_lor_div_shift v 7
      norm_num at hmd
      exact hmd

/-- Decoding the bytes the serialize loop emits for a positive value
yields the value back (the raw-stream reader). -/
theorem varRead_natBytes (wbits maxLen : Nat) (v : Nat) (rest : List Nat)
    (hv : 0 < v) (hlt : v < 2 ^ (wbits - 1)) (hw : 1 ≤ wbits)
    (hlen : (natBytes v).length ≤ maxLen) :
    varRead wbits maxLen (natBytes v ++ rest) = .ok ((v : Int), rest) := by
  have h := varReadLoop_natBytes wbits maxLen v hv 0 0 rest
    (by
      simpa using lt_of_lt_of_le hlt (Nat.pow_le_pow_right (by norm_num) (by omega)))
    (by simpa using hlen)
  unfold varRead
  rw [h]
  simp [Except.map, toSigned, hlt]

/-- Decoding the single zero byte yields zero. -/
theorem varRead_zero (wbits maxLen : Nat) (rest : List Nat) (h : 0 < maxLen) :
    varRead wbits maxLen ([0] ++ rest) = .ok ((0 : Int), rest) := by
  unfold varRead
  rw [varReadLoop.eq_def]
  have h0 : (0 : Nat) ≠ maxLen := by omega
  simp [h0, Except.map, toSigned, Nat.pos_pow_of_pos]

/-- C1: the claim asserts that decoding the serialization of every i32
value yields the value back within at most 5 bytes.  This fails: the
serialize loop shifts the signed accumulator with an arithmetic right
shift (`val >>= 7` on `i32`), so for `v = -1` the accumulator stays `-1`
forever and the loop never terminates (no fuel suffices), even though
`size()` reports 5 bytes.  For zero the claimed single `0x00` byte does
hold. -/
theorem c1_varint_negative_serialize_diverges :
    (∀ fuel, varSerLoop fuel (-1) = none) ∧ varSize 32 (-1) = 5 ∧
      varSerialize 1 0 = some [0] := by
  have hbl : bitLen ((2 : Nat) ^ 32 - 1) = 32 := by
    have hl : Nat.log2 ((2 : Nat) ^ 32 - 1) = 31 := by
      rw [Nat.log2_eq_log_two]
      exact Nat.log_eq_of_pow_le_of_lt_pow (by norm_num) (by norm_num)
    rw [bitLen, if_neg (by norm_num), hl]
  have hsz : varSize 32 (-1) = 5 := by
    have hp : toPattern 32 (-1) = 2 ^ 32 - 1 := by decide
    unfold varSize
    rw [if_neg (show ((-1 : Int)) ≠ 0 by decide), hp, hbl]
    norm_num [divCeil]
  refine ⟨?_, hsz, by decide⟩
  intro fuel
  induction fuel with
  | zero => decide
  | succ fuel ih =>
    rw [varSerLoop.eq_def]
    have h1 : ((-1 : Int)) ≠ 0 := by decide
    have h2 : Int.fdiv (-1) 128 = -1 := by decide
    rw [if_neg h1]
    simp only [h2, ih]
    simp

end MBot

namespace MBot

open MData

/-! ### Bounded stream (src/data/stream.rs)

`DataStream` pairs the bytes still available on the underlying channel
with the remaining-size budget of the current frame.  `Read::read` clamps
the request to the budget and decrements it by the bytes read, so
`read_exact` fails with an I/O error (`UnexpectedEof`) as soon as either
the budget or the channel is exhausted. -/

structure DataStream where
  buf : List Nat
  rem : Nat
deriving DecidableEq

/-- Model of `read_exact` against a `DataStream`. -/
def dsReadExact (k : Nat) (ds : DataStream) : Except DeErr (List Nat × DataStream) :=
  if k ≤ ds.rem ∧ k ≤ ds.buf.length then
    .ok (ds.buf.take k, ⟨ds.buf.drop k, ds.rem - k⟩)
  else .error .ioErr

/-- The read loop of `VarInt::read_` when the reader is a `DataStream`
(the path taken by `VarInt::deserialize`): identical to `varReadLoop`
except that each single-byte read also decrements — and is bounded by —
the remaining-size budget. -/
def varDeserLoop (wbits maxLen : Nat) (buf : List Nat) (rem i val : Nat) :
    Except DeErr (Nat × DataStream) :=
  if i = maxLen then .error .malformedPacket
  else if rem = 0 then .error .ioErr
  else
    match buf with
    | [] => .error .ioErr
    | b :: rest =>
      let val2 := val ||| ((b &&& 0x7F) <<< (7 * i)) % 2 ^ wbits
      if b &&& 0x80 = 0 then .ok (val2, ⟨rest, rem - 1⟩)
      else varDeserLoop wbits maxLen rest (rem - 1) (i + 1) val2

/-- Model of `VarInt::deserialize` (and `VarLong::deserialize`). -/
def varDeserialize (wbits maxLen : Nat) (ds : DataStream) :
    Except DeErr (Int × DataStream) :=
  Except.map (fun p => (toSigned wbits p.1, p.2))
    (varDeserLoop wbits maxLen ds.buf ds.rem 0 0)

theorem varDeserLoop_natBytes (wbits maxLen : Nat) :
    ∀ (v : Nat), 0 < v → ∀ (i val rem : Nat) (rest : List Nat),
      v * 2 ^ (7 * i) < 2 ^ wbits →
      (natBytes v).length + i ≤ maxLen →
      (natBytes v).length ≤ rem →
      varDeserLoop wbits maxLen (natBytes v ++ rest) rem i val =
        .ok (val ||| v <<< (7 * i), ⟨rest, rem - (natBytes v).length⟩) := by
  intro v
  induction v using Nat.strong_induction_on with
  | _ v ih =>
    intro hv i val rem rest htrunc hlen hrem
    by_cases hsmall : v < 128
    · rw [natBytes_small hsmall] at hlen hrem ⊢
      have hi : i ≠ maxLen := by simp at hlen; omega
      have hr : rem ≠ 0 := by simp at hrem; omega
      rw [varDeserLoop.eq_def, if_neg hi, if_neg hr]
      simp only [List.cons_append]
      have hv7 : v < 2 ^ 7 := by norm_num; omega
      have hand : v &&& 0x7F = v := by
        have h7 : (0x7F : Nat) = 2 ^ 7 - 1 := by norm_num
        rw [h7, land_two_pow_sub_one]
        exact Nat.mod_eq_of_lt hv7
      have hcont : v &&& 0x80 = 0 := by
        have h8 : (0x80 : Nat) = 2 ^ 7 := by norm_num
        rw [h8]
        exact land_two_pow_eq_zero hv7
      have hmod : (v <<< (7 * i)) % 2 ^ wbits = v <<< (7 * i) := by
        apply Nat.mod_eq_of_lt
        rw [Nat.shiftLeft_eq]
        exact htrunc
      simp [hand, hcont, hmod]
    · rw [natBytes_large hsmall] at hlen hrem ⊢
      have hi : i ≠ maxLen := by simp at hlen; omega
      have hr : rem ≠ 0 := by simp at hrem; omega
      rw [varDeserLoop.eq_def, if_neg hi, if_neg hr]
      simp only [List.cons_append]
      have hm7 : v % 128 < 2 ^ 7 := by
        have := Nat.mod_lt v (show 0 < 128 by norm_num)
        norm_num
        omega
      have hand : (v % 128 ||| 128) &&& 0x7F = v % 128 := by
        have h7 : (0x7F : Nat) = 2 ^ 7 - 1 := by norm_num
        rw [h7, land_two_pow_sub_one]
        apply Nat.eq_of_testBit_eq
        intro j
        simp only [Nat.testBit_mod_two_pow, Nat.testBit_lor]
        by_cases hj : j < 7
        · have hb : (128 : Nat).testBit j = false := by
            rw [show (128 : Nat) = 2 ^ 7 by norm_num, Nat.testBit_two_pow]
            simp
            omega
          simp [hj, hb]
        · have hb : (v % 128).testBit j = false :=
            testBit_eq_false_of_lt_pow hm7 (by omega)
          simp [hj, hb]
      have hcont : (v % 128 ||| 128) &&& 0x80 ≠ 0 := by
        have hl := lor_two_pow_land (v % 128) 7
        norm_num at hl
        show (v % 128 ||| 128) &&& 128 ≠ 0
        rw [hl]
        norm_num
      have hmodeq : ((v % 128) <<< (7 * i)) % 2 ^ wbits = (v % 128) <<< (7 * i) := by
        apply Nat.mod_eq_of_lt
        rw [Nat.shiftLeft_eq]
        calc v % 128 * 2 ^ (7 * i) ≤ v * 2 ^ (7 * i) :=
              Nat.mul_le_mul_right _ (Nat.mod_le _ _)
        _ < 2 ^ wbits := htrunc
      rw [hand]
      simp only [hcont, if_neg, hmodeq]
      have hd : 0 < v / 128 := Nat.div_pos (by omega) (by norm_num)
      have hrec := ih (v / 128) (Nat.div_lt_self (by omega) (by norm_num)) hd
        (i + 1) (val ||| (v % 128) <<< (7 * i)) (rem - 1) rest
        (by
          calc v / 128 * 2 ^ (7 * (i + 1)) = v / 128 * 128 * 2 ^ (7 * i) := by ring
          _ ≤ v * 2 ^ (7 * i) := Nat.mul_le_mul_right _ (Nat.div_mul_le_self v 128)
          _ < 2 ^ wbits := htrunc)
        (by simp at hlen; omega)
        (by simp at hrem; omega)
      rw [if_neg not_false, hrec]
      congr 2
      · rw [Nat.lor_assoc]
        congr 1
        rw [show (7 : Nat) * (i + 1) = 7 + 7 * i by ring, ← shiftLeft_shiftLeft,
          ← shiftLeft_lor]
        congr 1
        have hmd := mod_lor_div_shift v 7
        norm_num at hmd
        exact hmd
      · have hr2 : rem - 1 - (natBytes (v / 128)).length =
            rem - ((v % 128 ||| 128) :: natBytes (v / 128)).length := by
          simp only [List.length_cons]
          omega
        rw [hr2]

/-- Stream-based decode of the loop emission for a positive value. -/
theorem varDeserialize_natBytes (wbits maxLen : Nat) (v : Nat) (rest : List Nat)
    (rem : Nat) (hv : 0 < v) (hlt : v < 2 ^ (wbits - 1)) (hw : 1 ≤ wbits)
    (hlen : (natBytes v).length ≤ maxLen) (hrem : (natBytes v).length ≤ rem) :
    varDeserialize wbits maxLen ⟨natBytes v ++ rest, rem⟩ =
      .ok ((v : Int), ⟨rest, rem - (natBytes v).length⟩) := by
  have h := varDeserLoop_natBytes wbits maxLen v hv 0 0 rem rest
    (by
      simpa using lt_of_lt_of_le hlt (Nat.pow_le_pow_right (by norm_num) (by omega)))
    (by simpa using hlen) hrem
  unfold varDeserialize
  rw [h]
  simp [Except.map, toSigned, hlt]

/-- Stream-based decode of the single zero byte. -/
theorem varDeserialize_zero (wbits maxLen : Nat) (rest : List Nat) (rem : Nat)
    (h : 0 < maxLen) (hrem : 0 < rem) :
    varDeserialize wbits maxLen ⟨[0] ++ rest, rem⟩ =
      .ok ((0 : Int), ⟨rest, rem - 1⟩) := by
  unfold varDeserialize
  rw [varDeserLoop.eq_def]
  have h0 : (0 : Nat) ≠ maxLen := by omega
  have h1 : rem ≠ 0 := by omega
  simp [h0, h1, Except.map, toSigned, Nat.pos_pow_of_pos]

end MBot

namespace MBot

open MData

/-! ### String codec (src/datatypes/mod.rs, impl Serialize for String)

A Rust `String` is modelled as its list of Unicode scalar values.
`utf8EncodeChar` is the UTF-8 encoding of one scalar value, so
`strBytes s` is `s.as_bytes()` and `(strBytes s).length` is
`String::len` while `s.length` is `s.chars().count()`. -/

/-- UTF-8 encoding of one Unicode scalar value. -/
def utf8EncodeChar (c : Nat) : List Nat :=
  if c < 0x80 then [c]
  else if c < 0x800 then [0xC0 + c / 64, 0x80 + c % 64]
  else if c < 0x10000 then [0xE0 + c / 4096, 0x80 + c / 64 % 64, 0x80 + c % 64]
  else [0xF0 + c / 262144, 0x80 + c / 4096 % 64, 0x80 + c / 64 % 64, 0x80 + c % 64]

/-- Model of `String::as_bytes`. -/
def strBytes (s : List Nat) : List Nat := (s.map utf8EncodeChar).flatten

/-- Model of `<String as Serialize>::size`: the VarInt length of the BYTE
count plus the byte count (`self.len()` both times); `none` models the
`assert!(n <= i32::MAX)` panic. -/
def stringSize (s : List Nat) : Option Nat :=
  let n := (strBytes s).length
  if n ≤ 2 ^ 31 - 1 then some (varSize 32 (n : Int) + n) else none

/-- Model of `<String as Serialize>::serialize`: the VarInt encoding of
the CHARACTER count (`self.chars().count()`), then the raw bytes.  Fuel 5
always suffices for the VarInt loop because the count is nonnegative and
below `2 ^ 31`. -/
def stringSerialize (s : List Nat) : Option (List Nat) :=
  let n := s.length
  if n ≤ 2 ^ 31 - 1 then
    Option.map (fun pre => pre ++ strBytes s) (varSerialize 5 (n : Int))
  else none

theorem bitLen_eq (n k : Nat) (h0 : 2 ^ k ≤ n) (h1 : n < 2 ^ (k + 1)) :
    bitLen n = k + 1 := by
  have hone : 1 ≤ 2 ^ k := Nat.one_le_two_pow
  have hne : n ≠ 0 := by omega
  have hl : Nat.log2 n = k := by
    rw [Nat.log2_eq_log_two]
    exact Nat.log_eq_of_pow_le_of_lt_pow h0 h1
  rw [bitLen, if_neg hne, hl]

theorem varSize_192 : varSize 32 (192 : Int) = 2 := by
  have hp : toPattern 32 192 = 192 := by decide
  have hb : bitLen 192 = 8 := by
    have h := bitLen_eq 192 7 (by norm_num) (by norm_num)
    simpa using h
  unfold varSize
  rw [if_neg (show ((192 : Int)) ≠ 0 by norm_num), hp, hb]
  norm_num [divCeil]

/-- C3: the claim asserts that `size()` always equals the number of bytes
`serialize()` writes, in particular for `String`.  This fails:
`String::size` prefixes with `VarInt(byte_count)` whereas
`String::serialize` writes `VarInt(char_count)`.  For a string of 64
three-byte characters (U+0800 repeated), `size()` is `2 + 192 = 194`
while `serialize` writes `1 + 192 = 193` bytes, so the frame length
written by `send_packet` would overstate the actual payload by one
byte. -/
theorem c3_string_size_serialize_mismatch :
    stringSize (List.replicate 64 0x800) = some 194 ∧
      Option.map List.length (stringSerialize (List.replicate 64 0x800)) =
        some 193 := by
  have hlen : (strBytes (List.replicate 64 0x800)).length = 192 := by decide
  constructor
  · unfold stringSize
    rw [hlen]
    norm_num [varSize_192]
  · decide

end MBot

namespace MBot

open MData

/-! ### Packet receiving (src/packets/receive.rs)

`ClientboundPacket::receive_` and `PacketReceiver::receive_packet` are
modelled generically: the packet type, its `deserialize` and its
`receive` handler are parameters.  Both mutate the Rust stream in place,
so they are modelled as functions that always return the final stream
state alongside the result. -/

deriving instance DecidableEq for Except

/-- Model of `ConnectionState`. -/
inductive ConnectionState where
  | handshaking
  | status
  | login
  | configuration
  | play
deriving DecidableEq

/-- Model of `GameError` (src/game.rs), the unknown-entity domain error. -/
inductive GameErr where
  | unknownEntity (id : Int)
deriving DecidableEq

/-- Model of `ReceiveError`. -/
inductive RecvErr where
  | unknownPacketId (id : Nat)
  | serializeErr
  | deserializeErr (e : DeErr)
  | gameErr (e : GameErr)
deriving DecidableEq

/-- Model of `PacketReceiver::set_state`: `assert_ne!(new_state, self.state)`
then the assignment; `none` models the fatal assertion. -/
def setState (state newState : ConnectionState) : Option ConnectionState :=
  if newState = state then none else some newState

/-- Model of `LengthInferredByteArray::deserialize`: read exactly the
remaining-size budget (discarding the bytes). -/
def drainStream (ds : DataStream) : Except DeErr DataStream :=
  Except.map Prod.snd (dsReadExact ds.rem ds)

/-- Model of `ClientboundPacket::receive_`, generic in the packet type:
deserialize the payload (on a non-I/O failure drain the remaining bytes
before propagating), run the handler, and after a successful handler
drain-and-warn if the stream still has unread bytes. -/
def clientboundReceive {P : Type} (deser : DataStream → Except DeErr P × DataStream)
    (handler : P → DataStream → Except RecvErr Unit × DataStream)
    (ds : DataStream) : Except RecvErr Unit × DataStream :=
  match deser ds with
  | (.error .ioErr, ds1) => (.error (.deserializeErr .ioErr), ds1)
  | (.error e, ds1) =>
    match drainStream ds1 with
    | .ok ds2 => (.error (.deserializeErr e), ds2)
    | .error e2 => (.error (.deserializeErr e2), ds1)
  | (.ok p, ds1) =>
    match handler p ds1 with
    | (.error e, ds2) => (.error e, ds2)
    | (.ok _, ds2) =>
      if 0 < ds2.rem then
        match drainStream ds2 with
        | .ok ds3 => (.ok (), ds3)
        | .error e2 => (.error (.deserializeErr e2), ds2)
      else (.ok (), ds2)

/-- One row of the dispatch table of `receive_packet_`: the packet's
deserializer, its handler, and its `NEW_STATE`. -/
structure PacketEntry (P : Type) where
  deser : DataStream → Except DeErr P × DataStream
  handler : P → DataStream → Except RecvErr Unit × DataStream
  newState : Option ConnectionState

/-- Model of `PacketReceiver::receive_packet_`: `entry` is the result of
the `(packet id, current state)` table lookup; on no match the bounded
stream is drained and an unknown-packet-id error is returned.  `none`
models a panic (the `assert_ne!` inside `set_state`). -/
def receivePacketInner {P : Type} (entry : Option (PacketEntry P)) (id : Nat)
    (state : ConnectionState) (ds : DataStream) :
    Option (Except RecvErr Unit × DataStream × ConnectionState) :=
  match entry with
  | some ent =>
    match clientboundReceive ent.deser ent.handler ds with
    | (.ok _, ds2) =>
      match ent.newState with
      | some ns =>
        match setState state ns with
        | none => none
        | some st2 => some (.ok (), ds2, st2)
      | none => some (.ok (), ds2, state)
    | (.error e, ds2) => some (.error e, ds2, state)
  | none =>
    match drainStream ds with
    | .ok ds2 => some (.error (.unknownPacketId id), ds2, state)
    | .error e => some (.error (.deserializeErr e), ds, state)

/-- Model of `PacketReceiver::receive_packet`: read the frame length from
the raw stream, reject `size <= 0`, build the bounded stream, decode the
packet-id VarInt from it, `assert!(id >= 0)` (`none` models the panic),
then dispatch. -/
def receivePacket {P : Type}
    (table : Nat → ConnectionState → Option (PacketEntry P))
    (state : ConnectionState) (bytes : List Nat) :
    Option (Except RecvErr Unit × DataStream × ConnectionState) :=
  match varRead 32 5 bytes with
  | .error e => some (.error (.deserializeErr e), ⟨bytes, 0⟩, state)
  | .ok (size, rest) =>
    if size ≤ 0 then
      some (.error (.deserializeErr .malformedPacket), ⟨rest, 0⟩, state)
    else
      match varDeserialize 32 5 ⟨rest, size.toNat⟩ with
      | .error e => some (.error (.deserializeErr e), ⟨rest, size.toNat⟩, state)
      | .ok (id, ds1) =>
        if id < 0 then none
        else receivePacketInner (table id.toNat state) id.toNat state ds1

theorem drainStream_ok_rem {ds ds2 : DataStream} (h : drainStream ds = .ok ds2) :
    ds2.rem = 0 := by
  unfold drainStream dsReadExact at h
  split at h
  · simp only [Except.map] at h
    injection h with h
    rw [← h]
    simp
  · simp [Except.map] at h

/-- C8: transitioning the connection state machine to the phase it is
already in fails the `assert_ne!` (modelled as `none`, the state is never
changed), and transitioning to any other phase sets exactly that
phase. -/
theorem c8_set_state_same_phase_fatal (s n : ConnectionState) :
    (n = s → setState s n = none) ∧ (n ≠ s → setState s n = some n) := by
  constructor
  · intro h
    simp [setState, h]
  · intro h
    simp [setState, h]

/-- C8 witness: both branches at concrete phases. -/
theorem c8_set_state_witness :
    setState .login .login = none ∧ setState .login .play = some .play :=
  ⟨(c8_set_state_same_phase_fatal .login .login).1 rfl,
    (c8_set_state_same_phase_fatal .login .play).2 (by decide)⟩

/-- C10: when a frame's packet-id VarInt decodes to a negative value,
`receive_packet` hits `assert!(id >= 0)` and panics (modelled `none`)
instead of returning a recoverable error — for every dispatch table and
current state. -/
theorem c10_negative_packet_id_panics {P : Type}
    (table : Nat → ConnectionState → Option (PacketEntry P))
    (state : ConnectionState) (bytes rest : List Nat) (size : Int)
    (id : Int) (ds1 : DataStream)
    (hsize : varRead 32 5 bytes = .ok (size, rest))
    (hpos : ¬ size ≤ 0)
    (hid : varDeserialize 32 5 ⟨rest, size.toNat⟩ = .ok (id, ds1))
    (hneg : id < 0) :
    receivePacket table state bytes = none := by
  unfold receivePacket
  rw [hsize]
  simp only [hpos, if_neg, if_false]
  rw [hid]
  simp [hneg]

/-- C10 witness: the frame `[5, FF FF FF FF 0F]` declares size 5 and its
packet id decodes to `-1`; `receive_packet` panics on it. -/
theorem c10_negative_packet_id_witness :
    receivePacket (P := Unit) (fun _ _ => none) .play
      [5, 0xFF, 0xFF, 0xFF, 0xFF, 0x0F] = none :=
  c10_negative_packet_id_panics (fun _ _ => none) .play _
    [0xFF, 0xFF, 0xFF, 0xFF, 0x0F] 5 (-1) ⟨[], 0⟩ (by decide) (by decide)
    (by decide) (by decide)

end MBot

namespace MBot

open MData

/-! ### A concrete Play-phase packet: SetEntityVelocity (src/packets/mod.rs)

Used to exhibit the domain-error path of `receive_`. -/

/-- Model of `i16::deserialize`: two big-endian bytes. -/
def i16Deserialize (ds : DataStream) : Except DeErr (Int × DataStream) :=
  Except.map
    (fun p => (toSigned 16 (p.1.foldl (fun acc b => acc * 256 + b) 0), p.2))
    (dsReadExact 2 ds)

/-- Model of the `SetEntityVelocity` packet. -/
structure SetEntityVelocity where
  entityId : Int
  vx : Int
  vy : Int
  vz : Int
deriving DecidableEq

/-- Model of the derived `SetEntityVelocity::deserialize` (fields in
declaration order: one VarInt, then three big-endian i16).  On the error
path the stream state threaded back is the one at the failing field;
bytes a failing field itself consumed are not tracked (only the success
path is relied upon in the theorems below). -/
def setEntityVelocityDeser (ds : DataStream) :
    Except DeErr SetEntityVelocity × DataStream :=
  match varDeserialize 32 5 ds with
  | .error e => (.error e, ds)
  | .ok (eid, ds1) =>
    match i16Deserialize ds1 with
    | .error e => (.error e, ds1)
    | .ok (x, ds2) =>
      match i16Deserialize ds2 with
      | .error e => (.error e, ds2)
      | .ok (y, ds3) =>
        match i16Deserialize ds3 with
        | .error e => (.error e, ds3)
        | .ok (z, ds4) => (.ok ⟨eid, x, y, z⟩, ds4)

/-- Model of `SetEntityVelocity::receive`: look the entity up in the
registry (`entities.get_mut(id)`), failing with the unknown-entity domain
error when it is absent; the stream is not touched. -/
def setEntityVelocityReceive (entities : List Int) (p : SetEntityVelocity)
    (ds : DataStream) : Except RecvErr Unit × DataStream :=
  if p.entityId ∈ entities then (.ok (), ds)
  else (.error (.gameErr (.unknownEntity p.entityId)), ds)

theorem drainStream_error {ds : DataStream} {e : DeErr}
    (h : drainStream ds = .error e) : e = .ioErr := by
  unfold drainStream dsReadExact at h
  split at h
  · simp [Except.map] at h
  · simp only [Except.map] at h
    injection h with h
    exact h.symm

/-- C2 counterexample: a SetEntityVelocity frame whose declared size (9)
exceeds its 7-byte payload, received with an empty entity registry.  The
handler reports the unknown-entity domain error — not an I/O error — and
`receive_` propagates it without draining: the bounded stream still has
2 unread bytes on return, contradicting the claim. -/
theorem c2_domain_error_leaves_bytes :
    (clientboundReceive setEntityVelocityDeser (setEntityVelocityReceive [])
        ⟨[7, 0, 1, 0, 2, 0, 3, 9, 9], 9⟩).1 =
        .error (.gameErr (.unknownEntity 7)) ∧
      (clientboundReceive setEntityVelocityDeser (setEntityVelocityReceive [])
        ⟨[7, 0, 1, 0, 2, 0, 3, 9, 9], 9⟩).2.rem = 2 := by
  decide

/-- C2 (amended): the bounded stream is fully consumed on return in the
unknown-packet-id case, in the non-I/O payload-decode-failure case, and
in the successful-handler case (in each case unless the drain itself
fails, which surfaces as an I/O error); but when the handler reports a
domain (or any other) error, `receive_` propagates it without draining,
so the stream may retain unread bytes (see
`c2_domain_error_leaves_bytes`). -/
theorem c2_drained_in_unknown_decode_and_success_cases {P : Type}
    (deser : DataStream → Except DeErr P × DataStream)
    (handler : P → DataStream → Except RecvErr Unit × DataStream)
    (ds : DataStream) (id : Nat) (state : ConnectionState) :
    (∀ e ds1, deser ds = (.error e, ds1) → e ≠ .ioErr →
      (clientboundReceive deser handler ds).2.rem = 0 ∨
        (clientboundReceive deser handler ds).1 =
          .error (.deserializeErr .ioErr)) ∧
    (∀ p ds1 ds2, deser ds = (.ok p, ds1) → handler p ds1 = (.ok (), ds2) →
      (clientboundReceive deser handler ds).2.rem = 0 ∨
        (clientboundReceive deser handler ds).1 =
          .error (.deserializeErr .ioErr)) ∧
    (∀ res ds2 st2,
      receivePacketInner (P := P) none id state ds = some (res, ds2, st2) →
      ds2.rem = 0 ∨ res = .error (.deserializeErr .ioErr)) := by
  refine ⟨?_, ?_, ?_⟩
  · intro e ds1 h hne
    unfold clientboundReceive
    rw [h]
    cases e with
    | ioErr => exact absurd rfl hne
    | malformedPacket =>
      rcases hd : drainStream ds1 with e2 | ds2
      · have := drainStream_error hd
        subst this
        simp [hd]
      · simp [hd, drainStream_ok_rem hd]
    | nbtErr en =>
      rcases hd : drainStream ds1 with e2 | ds2
      · have := drainStream_error hd
        subst this
        simp [hd]
      · simp [hd, drainStream_ok_rem hd]
  · intro p ds1 ds2 h hh
    unfold clientboundReceive
    rw [h]
    dsimp only
    rw [hh]
    by_cases hr : 0 < ds2.rem
    · rcases hd : drainStream ds2 with e2 | ds3
      · have := drainStream_error hd
        subst this
        simp [hr, hd]
      · simp [hr, hd, drainStream_ok_rem hd]
    · left
      simp [hr]
      omega
  · intro res ds2 st2 h
    unfold receivePacketInner at h
    rcases hd : drainStream ds with e2 | ds3
    · have := drainStream_error hd
      subst this
      rw [hd] at h
      simp at h
      right
      simp [h.1]
    · rw [hd] at h
      simp at h
      left
      rw [← h.2.1]
      exact drainStream_ok_rem hd

/-- C2 witness: the successful-handler case at a concrete stream with one
unread byte; the drain leaves the stream fully consumed. -/
theorem c2_drained_witness :
    (clientboundReceive (P := Unit) (fun ds => (.ok (), ds))
        (fun _ ds => (.ok (), ds)) ⟨[9], 1⟩).2.rem = 0 ∨
      (clientboundReceive (P := Unit) (fun ds => (.ok (), ds))
        (fun _ ds => (.ok (), ds)) ⟨[9], 1⟩).1 =
        .error (.deserializeErr .ioErr) :=
  ((c2_drained_in_unknown_decode_and_success_cases
      (P := Unit) (fun ds => (.ok (), ds)) (fun _ ds => (.ok (), ds))
      ⟨[9], 1⟩ 0 .play).2.1) () ⟨[9], 1⟩ ⟨[9], 1⟩ rfl rfl

end MBot

namespace MBot

open MData

/-! ### Palette storage (src/game/world/palette.rs)

u64 words are `Nat`s; the Rust wrapping points carry an explicit
`% 2 ^ 64`.  `none` models a panic: a failed assert, an out-of-bounds
index, a division by zero (`64 / bpe` with `bpe = 0`) or an overflowing
shift (`1 << bpe` / `value << offset` with an amount of 64 or more). -/

/-- The `as u64` cast of an i32/i64 value (sign-extending). -/
def u64OfI32 (v : Int) : Nat := toPattern 64 v

/-- The `as i32` cast of a u64/usize value (truncation to 32 bits). -/
def i32OfU64 (n : Nat) : Int := toSigned 32 (n % 2 ^ 32)

/-- The `as usize` cast of an i32 value (sign-extending to 64 bits). -/
def usizeOfI32 (v : Int) : Nat := toPattern 64 v

/-- Model of the `PaletteConfig` trait constants. -/
structure PaletteConfig where
  entriesPerAxe : Nat
  directBpe : Nat
  maxIndirectEntries : Nat
deriving DecidableEq

/-- `ENTRIES_PER_AXE` cubed. -/
def PaletteConfig.entriesCount (c : PaletteConfig) : Nat :=
  c.entriesPerAxe * c.entriesPerAxe * c.entriesPerAxe

/-- The `Blocks` configuration. -/
def blocksConfig : PaletteConfig := ⟨16, 15, 256⟩

/-- The `Biomes` configuration. -/
def biomesConfig : PaletteConfig := ⟨4, 6, 8⟩

/-- Model of `LocalPos` (`Vec3<u8>`). -/
structure LocalPos where
  x : Nat
  y : Nat
  z : Nat
deriving DecidableEq

/-- Model of the `Palette` enum.  The `HashMap<i32, usize>` `id2palette`
is an association list (later inserts shadow earlier ones). -/
inductive Palette where
  | singleValued (id : Int)
  | indirect (bpe : Nat) (palette2id : List Int) (id2palette : List (Int × Nat))
      (data : List Nat)
  | direct (bpe : Nat) (data : List Nat)
deriving DecidableEq

/-- Whether a palette is in the Direct representation. -/
def Palette.isDirect : Palette → Bool
  | .direct _ _ => true
  | _ => false

/-- Whether a palette is in the Indirect representation. -/
def Palette.isIndirect : Palette → Bool
  | .indirect _ _ _ _ => true
  | _ => false

/-- `HashMap::contains_key` on the association list. -/
def alContains (m : List (Int × Nat)) (k : Int) : Bool :=
  m.any (fun kv => kv.1 = k)

/-- `HashMap::get` on the association list. -/
def alGet (m : List (Int × Nat)) (k : Int) : Option Nat :=
  (m.find? (fun kv => kv.1 = k)).map Prod.snd

/-- `HashMap::insert` on the association list. -/
def alInsert (m : List (Int × Nat)) (k : Int) (v : Nat) : List (Int × Nat) :=
  (k, v) :: m

/-- The flat index `((y * EPA) + z) * EPA + x`. -/
def flatIdx (c : PaletteConfig) (pos : LocalPos) : Nat :=
  (pos.y * c.entriesPerAxe + pos.z) * c.entriesPerAxe + pos.x

/-- Model of `Palette::get_from_data`. -/
def getFromData (c : PaletteConfig) (data : List Nat) (bpe : Nat)
    (pos : LocalPos) : Option Nat :=
  if bpe = 0 ∨ 64 ≤ bpe then none
  else
    let idx := flatIdx c pos
    let epl := 64 / bpe
    let longIdx := idx / epl
    let offset := bpe * (idx - epl * longIdx)
    let mask := (1 <<< bpe) - 1
    match data[longIdx]? with
    | none => none
    | some w => some ((w >>> offset) &&& mask)

/-- Model of `Palette::set_from_data` (returns the new array and the
displaced old value, already cast back to i32). -/
def setFromData (c : PaletteConfig) (data : List Nat) (bpe : Nat)
    (pos : LocalPos) (value : Int) : Option (List Nat × Int) :=
  if bpe = 0 ∨ 64 ≤ bpe then none
  else
    let idx := flatIdx c pos
    let epl := 64 / bpe
    let longIdx := idx / epl
    let offset := bpe * (idx - epl * longIdx)
    let mask := ((1 <<< bpe) - 1) <<< offset
    let v := (u64OfI32 value <<< offset) % 2 ^ 64 &&& mask
    match data[longIdx]? with
    | none => none
    | some w =>
      let oldValue := (w &&& mask) >>> offset
      some (data.set longIdx ((w &&& (mask ^^^ (2 ^ 64 - 1))) ||| v),
        i32OfU64 oldValue)

/-- Model of `Palette::get`. -/
def Palette.get (c : PaletteConfig) (p : Palette) (pos : LocalPos) : Option Int :=
  if pos.x < c.entriesPerAxe ∧ pos.y < c.entriesPerAxe ∧ pos.z < c.entriesPerAxe
  then
    match p with
    | .singleValued id => some id
    | .indirect bpe palette2id _ data =>
      match getFromData c data bpe pos with
      | none => none
      | some idx =>
        if h : idx < palette2id.length then some (palette2id.get ⟨idx, h⟩)
        else none
    | .direct bpe data =>
      match getFromData c data bpe pos with
      | none => none
      | some v => some (i32OfU64 v)
  else none

/-- Model of `Palette::single_to_direct`: a direct-width array whose
fields all hold `id`. -/
def singleToDirect (c : PaletteConfig) (id : Int) : Option (Nat × List Nat) :=
  let bpe := c.directBpe
  if bpe = 0 ∨ 64 ≤ bpe then none
  else
    let epl := 64 / bpe
    let long := (List.range epl).foldl
      (fun val _ => (val <<< bpe) % 2 ^ 64 ||| u64OfI32 id) 0
    some (bpe, List.replicate (divCeil c.entriesCount epl) long)

/-- Model of `Palette::set_indirect`: write the dictionary code of `id`
(`expect` panics when absent) and map the displaced code back through the
dictionary (indexing panics when the displaced code is out of range). -/
def setIndirect (c : PaletteConfig) (bpe : Nat) (id2palette : List (Int × Nat))
    (palette2id : List Int) (data : List Nat) (pos : LocalPos) (id : Int) :
    Option (List Nat × Int) :=
  match alGet id2palette id with
  | none => none
  | some pid =>
    match setFromData c data bpe pos (i32OfU64 pid) with
    | none => none
    | some (data2, oldPid) =>
      match palette2id[usizeOfI32 oldPid]? with
      | none => none
      | some oldId => some (data2, oldId)

/-- State of the re-packing loop of `indirect_rebuild_new_bpe_map`. -/
structure RebSt where
  oldLong : Nat
  oldOff : Nat
  newLong : Nat
  newOff : Nat
  newData : List Nat
deriving DecidableEq

/-- One iteration of the re-packing loop: roll the offsets over to the
next word when the next field does not fit, read the old-width field, map
it, write the new-width field.  The map returns `Option` because the
`indirect_to_direct` instantiation indexes the dictionary (a panic when
out of range). -/
def rebStep (oldBpe newBpe : Nat) (mapFn : Int → Option Int) (data : List Nat)
    (st : RebSt) : Option RebSt :=
  let st :=
    if 64 < st.oldOff + oldBpe then
      { st with oldOff := 0, oldLong := st.oldLong + 1 }
    else st
  let st :=
    if 64 < st.newOff + newBpe then
      { st with newOff := 0, newLong := st.newLong + 1 }
    else st
  match data[st.oldLong]? with
  | none => none
  | some w =>
    let val := (w >>> st.oldOff) &&& ((1 <<< oldBpe) - 1)
    match mapFn (i32OfU64 val) with
    | none => none
    | some y =>
      let val2 := u64OfI32 y
      match st.newData[st.newLong]? with
      | none => none
      | some nw =>
        let mask := ((1 <<< newBpe) - 1) <<< st.newOff
        some { st with
          newData := st.newData.set st.newLong
            ((nw &&& (mask ^^^ (2 ^ 64 - 1))) ||| (val2 <<< st.newOff) % 2 ^ 64),
          oldOff := st.oldOff + oldBpe,
          newOff := st.newOff + newBpe }

/-- The `for _ in 0..ENTRIES_COUNT` loop. -/
def rebuildLoop (oldBpe newBpe : Nat) (mapFn : Int → Option Int)
    (data : List Nat) : Nat → RebSt → Option RebSt
  | 0, st => some st
  | n + 1, st =>
    match rebStep oldBpe newBpe mapFn data st with
    | none => none
    | some st2 => rebuildLoop oldBpe newBpe mapFn data n st2

/-- Model of `Palette::indirect_rebuild_new_bpe_map`. -/
def indirectRebuildMap (c : PaletteConfig) (oldBpe newBpe : Nat)
    (mapFn : Int → Option Int) (data : List Nat) : Option (List Nat) :=
  if oldBpe = 0 ∨ 64 ≤ oldBpe ∨ newBpe = 0 ∨ 64 ≤ newBpe then none
  else
    let newLen := divCeil c.entriesCount (64 / newBpe)
    Option.map RebSt.newData
      (rebuildLoop oldBpe newBpe mapFn data c.entriesCount
        ⟨0, 0, 0, 0, List.replicate newLen 0⟩)

/-- Model of `Palette::indirect_rebuild_new_bpe` (identity map). -/
def indirectRebuild (c : PaletteConfig) (oldBpe newBpe : Nat)
    (data : List Nat) : Option (List Nat) :=
  indirectRebuildMap c oldBpe newBpe (fun a => some a) data

/-- Model of `Palette::indirect_to_direct` (map each code through
`palette2id`). -/
def indirectToDirect (c : PaletteConfig) (bpe : Nat) (palette2id : List Int)
    (data : List Nat) : Option (List Nat) :=
  indirectRebuildMap c bpe c.directBpe
    (fun pid => palette2id.get? (usizeOfI32 pid)) data

/-- Model of `Palette::set`, the promotion state machine.  The dictionary
growth branch computes `usize::BITS - palette_id.leading_zeros()`, i.e.
the bit length of the new code. -/
def Palette.set (c : PaletteConfig) (p : Palette) (pos : LocalPos) (id : Int) :
    Option (Palette × Int) :=
  match p with
  | .direct bpe data =>
    match setFromData c data bpe pos id with
    | none => none
    | some (data2, old) => some (.direct bpe data2, old)
  | .singleValued oldId =>
    match singleToDirect c oldId with
    | none => none
    | some (bpe, data) =>
      match setFromData c data bpe pos id with
      | none => none
      | some (data2, old) => some (.direct bpe data2, old)
  | .indirect bpe palette2id id2palette data =>
    if alContains id2palette id then
      match setIndirect c bpe id2palette palette2id data pos id with
      | none => none
      | some (data2, old) =>
        some (.indirect bpe palette2id id2palette data2, old)
    else if palette2id.length < c.maxIndirectEntries then
      let paletteId := palette2id.length
      let palette2id2 := palette2id ++ [id]
      let id2palette2 := alInsert id2palette id paletteId
      let newBpe := 64 - (64 - bitLen paletteId)
      if newBpe ≠ bpe then
        match indirectRebuild c bpe newBpe data with
        | none => none
        | some data2 =>
          match setIndirect c newBpe id2palette2 palette2id2 data2 pos id with
          | none => none
          | some (data3, old) =>
            some (.indirect newBpe palette2id2 id2palette2 data3, old)
      else
        match setIndirect c bpe id2palette2 palette2id2 data pos id with
        | none => none
        | some (data2, old) =>
          some (.indirect bpe palette2id2 id2palette2 data2, old)
    else
      match indirectToDirect c bpe palette2id data with
      | none => none
      | some ddata =>
        match setFromData c ddata c.directBpe pos id with
        | none => none
        | some (data2, old) => some (.direct c.directBpe data2, old)

/-- C9: a set on a SingleValued palette always converts straight to the
Direct representation — also when the written id equals the stored single
value — and never to Indirect. -/
theorem c9_single_set_goes_direct (c : PaletteConfig) (v : Int)
    (pos : LocalPos) (id : Int) (p2 : Palette) (old : Int)
    (h : Palette.set c (.singleValued v) pos id = some (p2, old)) :
    p2.isDirect = true ∧ p2.isIndirect = false := by
  unfold Palette.set at h
  dsimp only at h
  rcases hs : singleToDirect c v with _ | ⟨bpe, data⟩
  · rw [hs] at h
    simp at h
  · rw [hs] at h
    dsimp only at h
    rcases hw : setFromData c data bpe pos id with _ | ⟨data2, o⟩
    · rw [hw] at h
      simp at h
    · rw [hw] at h
      simp only [Option.some.injEq, Prod.mk.injEq] at h
      rw [← h.1]
      exact ⟨rfl, rfl⟩

/-- C9 witness: a concrete promotion where the written id equals the
stored single value; the result is Direct, not Indirect. -/
theorem c9_single_set_witness :
    ∃ p2 old, Palette.set biomesConfig (.singleValued 5) ⟨0, 0, 0⟩ 5 =
        some (p2, old) ∧ p2.isDirect = true ∧ p2.isIndirect = false := by
  rcases hs : Palette.set biomesConfig (.singleValued 5) ⟨0, 0, 0⟩ 5 with _ | ⟨p2, old⟩
  · exact absurd hs (by decide)
  · exact ⟨p2, old, rfl, c9_single_set_goes_direct biomesConfig 5 ⟨0, 0, 0⟩ 5 p2 old hs⟩

end MBot

namespace MBot

open MData

/-! ### Bitfield window lemmas

`readW w off bpe` is the extraction `(w >> off) & ((1 << bpe) - 1)` used
by `get_from_data`; `wipeWindow w off bpe` is the clearing
`w & !(((1 << bpe) - 1) << off)` used by the write paths (the u64
complement `!m` is `m ^^^ (2 ^ 64 - 1)`). -/

/-- The bitfield extraction of `get_from_data` / `set_from_data`. -/
def readW (w off bpe : Nat) : Nat := (w >>> off) &&& ((1 <<< bpe) - 1)

/-- Clearing a bitfield window before the or-in of a new value. -/
def wipeWindow (w off bpe : Nat) : Nat :=
  w &&& ((((1 <<< bpe) - 1) <<< off) ^^^ (2 ^ 64 - 1))

theorem readW_zero (off bpe : Nat) : readW 0 off bpe = 0 := by
  unfold readW
  simp

theorem readW_lt (w off bpe : Nat) : readW w off bpe < 2 ^ bpe := by
  unfold readW
  rw [Nat.one_shiftLeft, land_two_pow_sub_one]
  exact Nat.mod_lt _ (by positivity)

theorem read_wipe_or_same (w off bpe v : Nat) (hoff : off + bpe ≤ 64)
    (hv : v < 2 ^ bpe) :
    readW (wipeWindow w off bpe ||| (v <<< off) % 2 ^ 64) off bpe = v := by
  apply Nat.eq_of_testBit_eq
  intro i
  unfold readW wipeWindow
  simp only [Nat.one_shiftLeft, Nat.testBit_land, Nat.testBit_lor,
    Nat.testBit_xor, Nat.testBit_shiftLeft, Nat.testBit_shiftRight,
    Nat.testBit_mod_two_pow, Nat.testBit_two_pow_sub_one, ge_iff_le,
    Nat.le_add_right, Nat.add_sub_cancel_left, decide_True, Bool.true_and]
  by_cases hi : i < bpe
  · have h64 : off + i < 64 := by omega
    simp [hi, h64]
  · have hvb : v.testBit i = false := testBit_eq_false_of_lt_pow hv (by omega)
    simp [hi, hvb]

theorem read_wipe_or_other (w off bpe v off2 bpe2 : Nat) (hv : v < 2 ^ bpe)
    (h2 : off2 + bpe2 ≤ 64)
    (hd : off2 + bpe2 ≤ off ∨ off + bpe ≤ off2) :
    readW (wipeWindow w off bpe ||| (v <<< off) % 2 ^ 64) off2 bpe2 =
      readW w off2 bpe2 := by
  apply Nat.eq_of_testBit_eq
  intro i
  unfold readW wipeWindow
  simp only [Nat.one_shiftLeft, Nat.testBit_land, Nat.testBit_lor,
    Nat.testBit_xor, Nat.testBit_shiftLeft, Nat.testBit_shiftRight,
    Nat.testBit_mod_two_pow, Nat.testBit_two_pow_sub_one, ge_iff_le]
  by_cases hi : i < bpe2
  · have h64 : off2 + i < 64 := by omega
    rcases hd with hd | hd
    · have hlt : ¬ off ≤ off2 + i := by omega
      simp [hi, h64, hlt]
    · have hge : off ≤ off2 + i := by omega
      have hnb : ¬ off2 + i - off < bpe := by omega
      have hvb : v.testBit (off2 + i - off) = false :=
        testBit_eq_false_of_lt_pow hv (by omega)
      simp [hi, h64, hge, hnb, hvb]
  · simp [hi]

theorem read_wipe_or_masked_same (w off bpe vRaw : Nat) (hoff : off + bpe ≤ 64) :
    readW (wipeWindow w off bpe |||
        (vRaw <<< off) % 2 ^ 64 &&& (((1 <<< bpe) - 1) <<< off)) off bpe =
      vRaw &&& ((1 <<< bpe) - 1) := by
  apply Nat.eq_of_testBit_eq
  intro i
  unfold readW wipeWindow
  simp only [Nat.one_shiftLeft, Nat.testBit_land, Nat.testBit_lor,
    Nat.testBit_xor, Nat.testBit_shiftLeft, Nat.testBit_shiftRight,
    Nat.testBit_mod_two_pow, Nat.testBit_two_pow_sub_one, ge_iff_le,
    Nat.le_add_right, Nat.add_sub_cancel_left, decide_True, Bool.true_and]
  by_cases hi : i < bpe
  · have h64 : off + i < 64 := by omega
    simp [hi, h64]
  · simp [hi]

theorem read_wipe_or_masked_other (w off bpe vRaw off2 bpe2 : Nat)
    (h2 : off2 + bpe2 ≤ 64)
    (hd : off2 + bpe2 ≤ off ∨ off + bpe ≤ off2) :
    readW (wipeWindow w off bpe |||
        (vRaw <<< off) % 2 ^ 64 &&& (((1 <<< bpe) - 1) <<< off)) off2 bpe2 =
      readW w off2 bpe2 := by
  apply Nat.eq_of_testBit_eq
  intro i
  unfold readW wipeWindow
  simp only [Nat.one_shiftLeft, Nat.testBit_land, Nat.testBit_lor,
    Nat.testBit_xor, Nat.testBit_shiftLeft, Nat.testBit_shiftRight,
    Nat.testBit_mod_two_pow, Nat.testBit_two_pow_sub_one, ge_iff_le]
  by_cases hi : i < bpe2
  · have h64 : off2 + i < 64 := by omega
    rcases hd with hd | hd
    · have hlt : ¬ off ≤ off2 + i := by omega
      simp [hi, h64, hlt]
    · have hge : off ≤ off2 + i := by omega
      have hnb : ¬ off2 + i - off < bpe := by omega
      simp [hi, h64, hge, hnb]
  · simp [hi]

theorem land_mask_shiftRight (w off bpe : Nat) :
    (w &&& (((1 <<< bpe) - 1) <<< off)) >>> off = readW w off bpe := by
  apply Nat.eq_of_testBit_eq
  intro i
  unfold readW
  simp only [Nat.one_shiftLeft, Nat.testBit_land, Nat.testBit_shiftLeft,
    Nat.testBit_shiftRight, Nat.testBit_two_pow_sub_one, ge_iff_le,
    Nat.le_add_right, Nat.add_sub_cancel_left, decide_True, Bool.true_and]

end MBot

namespace MBot

open MData

/-! ### Entry-level view of the bit-packed arrays -/

/-- The value of logical entry `k` in a packed array at width `bpe`
(entry `k` lives in word `k / (64 / bpe)` at offset
`bpe * (k % (64 / bpe))`). -/
def entryRead (data : List Nat) (bpe k : Nat) : Nat :=
  readW (data.getD (k / (64 / bpe)) 0) (bpe * (k % (64 / bpe))) bpe

theorem epl_pos {bpe : Nat} (h1 : 1 ≤ bpe) (h2 : bpe ≤ 63) : 0 < 64 / bpe :=
  Nat.div_pos (by omega) (by omega)

theorem off_bound {bpe m : Nat} (h1 : 1 ≤ bpe) (hm : m < 64 / bpe) :
    bpe * m + bpe ≤ 64 := by
  have ha : bpe * (m + 1) ≤ bpe * (64 / bpe) := Nat.mul_le_mul_left _ (by omega)
  have hb := Nat.div_mul_le_self 64 bpe
  calc bpe * m + bpe = bpe * (m + 1) := by ring
  _ ≤ bpe * (64 / bpe) := ha
  _ = 64 / bpe * bpe := by ring
  _ ≤ 64 := hb

theorem flat_lt_dataLen {idx count epl : Nat} (hidx : idx < count)
    (he : 0 < epl) : idx / epl < divCeil count epl := by
  have h1 : count + epl - 1 = (count - 1) + epl := by omega
  rw [divCeil, h1, Nat.add_div_right _ he]
  have := Nat.div_le_div_right (c := epl) (show idx ≤ count - 1 by omega)
  omega

theorem flatIdx_lt (c : PaletteConfig) (pos : LocalPos)
    (hx : pos.x < c.entriesPerAxe) (hy : pos.y < c.entriesPerAxe)
    (hz : pos.z < c.entriesPerAxe) : flatIdx c pos < c.entriesCount := by
  unfold flatIdx PaletteConfig.entriesCount
  have h1 : (pos.y + 1) * c.entriesPerAxe ≤
      c.entriesPerAxe * c.entriesPerAxe :=
    Nat.mul_le_mul_right _ (by omega)
  have h1b : (pos.y + 1) * c.entriesPerAxe =
      pos.y * c.entriesPerAxe + c.entriesPerAxe := by ring
  have h3 : (pos.y * c.entriesPerAxe + pos.z + 1) * c.entriesPerAxe ≤
      c.entriesPerAxe * c.entriesPerAxe * c.entriesPerAxe :=
    Nat.mul_le_mul_right _ (by omega)
  have h4 : (pos.y * c.entriesPerAxe + pos.z + 1) * c.entriesPerAxe =
      (pos.y * c.entriesPerAxe + pos.z) * c.entriesPerAxe + c.entriesPerAxe := by
    ring
  omega

theorem flatIdx_inj (c : PaletteConfig) (p q : LocalPos)
    (hpx : p.x < c.entriesPerAxe) (hpz : p.z < c.entriesPerAxe)
    (hqx : q.x < c.entriesPerAxe) (hqz : q.z < c.entriesPerAxe)
    (h : flatIdx c p = flatIdx c q) : p = q := by
  have hA : 0 < c.entriesPerAxe := by omega
  have key : ∀ a b : Nat, b < c.entriesPerAxe →
      (a * c.entriesPerAxe + b) % c.entriesPerAxe = b ∧
      (a * c.entriesPerAxe + b) / c.entriesPerAxe = a := by
    intro a b hb
    constructor
    · rw [Nat.mul_comm, Nat.mul_add_mod, Nat.mod_eq_of_lt hb]
    · rw [Nat.mul_comm, Nat.mul_add_div hA, Nat.div_eq_of_lt hb, Nat.add_zero]
  unfold flatIdx at h
  have hpm := key (p.y * c.entriesPerAxe + p.z) p.x hpx
  have hqm := key (q.y * c.entriesPerAxe + q.z) q.x hqx
  have hx : p.x = q.x := by rw [← hpm.1, ← hqm.1, h]
  have hyz : p.y * c.entriesPerAxe + p.z = q.y * c.entriesPerAxe + q.z := by
    rw [← hpm.2, ← hqm.2, h]
  have hpm2 := key p.y p.z hpz
  have hqm2 := key q.y q.z hqz
  have hz : p.z = q.z := by rw [← hpm2.1, ← hqm2.1, hyz]
  have hy : p.y = q.y := by rw [← hpm2.2, ← hqm2.2, hyz]
  cases p
  cases q
  simp_all

theorem getD_eq_of_getElem {data : List Nat} {i : Nat} (h : i < data.length) :
    data[i]? = some (data.getD i 0) := by
  rw [List.getD_eq_getElem?_getD, List.getElem?_eq_getElem h]
  rfl

theorem getD_set_self {data : List Nat} {i : Nat} (h : i < data.length)
    {a : Nat} : (data.set i a).getD i 0 = a := by
  rw [List.getD_eq_getElem?_getD, List.getElem?_set_self h]
  rfl

theorem getD_set_ne {data : List Nat} {i j : Nat} (h : i ≠ j) {a : Nat} :
    (data.set i a).getD j 0 = data.getD j 0 := by
  rw [List.getD_eq_getElem?_getD, List.getElem?_set_ne h,
    ← List.getD_eq_getElem?_getD]

theorem getFromData_eq (c : PaletteConfig) (data : List Nat) (bpe : Nat)
    (pos : LocalPos) (h1 : 1 ≤ bpe) (h2 : bpe ≤ 63)
    (hlen : flatIdx c pos / (64 / bpe) < data.length) :
    getFromData c data bpe pos = some (entryRead data bpe (flatIdx c pos)) := by
  unfold getFromData entryRead readW
  rw [if_neg (by omega)]
  have hoff : flatIdx c pos - 64 / bpe * (flatIdx c pos / (64 / bpe)) =
      flatIdx c pos % (64 / bpe) := by
    have := Nat.div_add_mod (flatIdx c pos) (64 / bpe)
    omega
  dsimp only
  rw [getD_eq_of_getElem hlen]
  dsimp only
  rw [hoff]

theorem setFromData_spec (c : PaletteConfig) (data : List Nat) (bpe : Nat)
    (pos : LocalPos) (value : Int) (h1 : 1 ≤ bpe) (h2 : bpe ≤ 63)
    (hlen : flatIdx c pos / (64 / bpe) < data.length) :
    ∃ data2, setFromData c data bpe pos value =
        some (data2, i32OfU64 (entryRead data bpe (flatIdx c pos))) ∧
      data2.length = data.length ∧
      entryRead data2 bpe (flatIdx c pos) =
        u64OfI32 value &&& ((1 <<< bpe) - 1) ∧
      ∀ k, k ≠ flatIdx c pos → entryRead data2 bpe k = entryRead data bpe k := by
  have hepl : 0 < 64 / bpe := epl_pos h1 h2
  have hoff : flatIdx c pos - 64 / bpe * (flatIdx c pos / (64 / bpe)) =
      flatIdx c pos % (64 / bpe) := by
    have := Nat.div_add_mod (flatIdx c pos) (64 / bpe)
    omega
  have hob : bpe * (flatIdx c pos % (64 / bpe)) + bpe ≤ 64 :=
    off_bound h1 (Nat.mod_lt _ hepl)
  obtain ⟨w, hw⟩ : ∃ w, data[flatIdx c pos / (64 / bpe)]? = some w :=
    ⟨data.getD (flatIdx c pos / (64 / bpe)) 0, getD_eq_of_getElem hlen⟩
  have hwD : data.getD (flatIdx c pos / (64 / bpe)) 0 = w := by
    rw [getD_eq_of_getElem hlen] at hw
    injection hw
  refine ⟨data.set (flatIdx c pos / (64 / bpe))
      (wipeWindow w (bpe * (flatIdx c pos % (64 / bpe))) bpe |||
        (u64OfI32 value <<< (bpe * (flatIdx c pos % (64 / bpe)))) % 2 ^ 64 &&&
          (((1 <<< bpe) - 1) <<< (bpe * (flatIdx c pos % (64 / bpe))))), ?_, ?_, ?_, ?_⟩
  · unfold setFromData
    rw [if_neg (by omega)]
    dsimp only
    rw [hw]
    dsimp only
    rw [hoff]
    unfold entryRead wipeWindow
    rw [hwD, land_mask_shiftRight]
  · exact List.length_set data _ _
  · unfold entryRead
    rw [getD_set_self hlen]
    exact read_wipe_or_masked_same w _ bpe (u64OfI32 value) hob
  · intro k hk
    unfold entryRead
    by_cases hL : k / (64 / bpe) = flatIdx c pos / (64 / bpe)
    · rw [hL, getD_set_self hlen, hwD]
      have hmne : k % (64 / bpe) ≠ flatIdx c pos % (64 / bpe) := by
        intro hmeq
        apply hk
        have ha := Nat.div_add_mod k (64 / bpe)
        have hb := Nat.div_add_mod (flatIdx c pos) (64 / bpe)
        rw [hL, hmeq] at ha
        omega
      have hwin : bpe * (k % (64 / bpe)) + bpe ≤ 64 :=
        off_bound h1 (Nat.mod_lt _ hepl)
      have hd : bpe * (k % (64 / bpe)) + bpe ≤
            bpe * (flatIdx c pos % (64 / bpe)) ∨
          bpe * (flatIdx c pos % (64 / bpe)) + bpe ≤
            bpe * (k % (64 / bpe)) := by
        rcases Nat.lt_or_ge (k % (64 / bpe)) (flatIdx c pos % (64 / bpe))
          with hlt | hge
        · left
          calc bpe * (k % (64 / bpe)) + bpe = bpe * (k % (64 / bpe) + 1) := by
                ring
          _ ≤ bpe * (flatIdx c pos % (64 / bpe)) :=
              Nat.mul_le_mul_left _ (by omega)
        · right
          calc bpe * (flatIdx c pos % (64 / bpe)) + bpe =
              bpe * (flatIdx c pos % (64 / bpe) + 1) := by ring
          _ ≤ bpe * (k % (64 / bpe)) := Nat.mul_le_mul_left _ (by omega)
      exact read_wipe_or_masked_other w _ bpe (u64OfI32 value) _ bpe hwin hd
    · rw [getD_set_ne (fun hh => hL hh.symm)]

end MBot

namespace MBot

open MData

theorem u64OfI32_nonneg {v : Int} (h0 : 0 ≤ v) (hlt : v < 2 ^ 64) :
    u64OfI32 v = v.toNat := by
  unfold u64OfI32 toPattern
  rw [Int.emod_eq_of_lt h0 (by exact_mod_cast hlt)]

theorem i32OfU64_small {n : Nat} (h : n < 2 ^ 31) : i32OfU64 n = (n : Int) := by
  unfold i32OfU64 toSigned
  have h32 : n % 2 ^ 32 = n :=
    Nat.mod_eq_of_lt (lt_of_lt_of_le h (by norm_num))
  rw [h32, if_pos (by norm_num; omega)]

theorem i32OfU64_zero : i32OfU64 0 = 0 := by decide

theorem fill_zero (bpe : Nat) (l : List Nat) :
    l.foldl (fun val _ => (val <<< bpe) % 2 ^ 64 ||| u64OfI32 0) 0 = 0 := by
  have h0 : u64OfI32 0 = 0 := by decide
  induction l with
  | nil => rfl
  | cons a l ih =>
    rw [List.foldl_cons]
    simpa [h0] using ih

theorem singleToDirect_zero (c : PaletteConfig) (h1 : 1 ≤ c.directBpe)
    (h2 : c.directBpe ≤ 63) :
    singleToDirect c 0 = some (c.directBpe,
      List.replicate (divCeil c.entriesCount (64 / c.directBpe)) 0) := by
  unfold singleToDirect
  rw [if_neg (by omega)]
  dsimp only
  rw [fill_zero]

theorem getD_replicate_zero (n i : Nat) :
    (List.replicate n (0 : Nat)).getD i 0 = 0 := by
  rw [List.getD_eq_getElem?_getD, List.getElem?_replicate]
  split <;> rfl

theorem entryRead_replicate_zero (n bpe k : Nat) :
    entryRead (List.replicate n 0) bpe k = 0 := by
  unfold entryRead
  rw [getD_replicate_zero, readW_zero]

/-- C4 (amended): from SingleValued(0), one `set` with a non-zero id that
fits in the config's direct bit width (`0 < id < 2 ^ DIRECT_BPE`) at an
in-bounds position promotes straight to Direct, the displaced value is 0,
reading the position back gives the written id, and every other in-bounds
position reads 0. -/
theorem c4_single_promotion_readback (c : PaletteConfig) (pos : LocalPos)
    (id : Int) (hb1 : 1 ≤ c.directBpe) (hb2 : c.directBpe ≤ 31)
    (hx : pos.x < c.entriesPerAxe) (hy : pos.y < c.entriesPerAxe)
    (hz : pos.z < c.entriesPerAxe)
    (hid0 : 0 < id) (hidlt : id < 2 ^ c.directBpe) :
    ∃ data2, Palette.set c (.singleValued 0) pos id =
        some (.direct c.directBpe data2, 0) ∧
      Palette.get c (.direct c.directBpe data2) pos = some id ∧
      ∀ q : LocalPos, q.x < c.entriesPerAxe → q.y < c.entriesPerAxe →
        q.z < c.entriesPerAxe → q ≠ pos →
        Palette.get c (.direct c.directBpe data2) q = some 0 := by
  have hb2b : c.directBpe ≤ 63 := by omega
  have hepl : 0 < 64 / c.directBpe := epl_pos hb1 hb2b
  have hcnt : flatIdx c pos < c.entriesCount := flatIdx_lt c pos hx hy hz
  have hlen : flatIdx c pos / (64 / c.directBpe) <
      (List.replicate (divCeil c.entriesCount (64 / c.directBpe)) (0 : Nat)).length := by
    rw [List.length_replicate]
    exact flat_lt_dataLen hcnt hepl
  obtain ⟨data2, hset, hdlen, hsame, hother⟩ :=
    setFromData_spec c (List.replicate (divCeil c.entriesCount (64 / c.directBpe)) 0)
      c.directBpe pos id hb1 hb2b hlen
  have hidpow : id < 2 ^ 64 :=
    lt_of_lt_of_le hidlt (by
      exact_mod_cast Nat.pow_le_pow_right (by norm_num) (by omega))
  have hved : u64OfI32 id = id.toNat := u64OfI32_nonneg (by omega) hidpow
  have hto31 : id.toNat < 2 ^ c.directBpe := by
    have hh : (id.toNat : Int) < (2 : Int) ^ c.directBpe := by
      rw [Int.toNat_of_nonneg (by omega)]
      exact hidlt
    exact_mod_cast hh
  refine ⟨data2, ?_, ?_, ?_⟩
  · unfold Palette.set
    dsimp only
    rw [singleToDirect_zero c hb1 hb2b]
    dsimp only
    rw [hset, entryRead_replicate_zero, i32OfU64_zero]
  · unfold Palette.get
    rw [if_pos ⟨hx, hy, hz⟩]
    dsimp only
    rw [getFromData_eq c data2 c.directBpe pos hb1 hb2b (by rw [hdlen]; exact hlen)]
    dsimp only
    rw [hsame, hved]
    have hland : id.toNat &&& ((1 <<< c.directBpe) - 1) = id.toNat := by
      rw [Nat.one_shiftLeft, land_two_pow_sub_one]
      exact Nat.mod_eq_of_lt hto31
    rw [hland]
    have : i32OfU64 id.toNat = (id.toNat : Int) :=
      i32OfU64_small (lt_of_lt_of_le hto31 (Nat.pow_le_pow_right (by norm_num) hb2))
    rw [this, Int.toNat_of_nonneg (by omega)]
  · intro q hqx hqy hqz hne
    unfold Palette.get
    rw [if_pos ⟨hqx, hqy, hqz⟩]
    dsimp only
    have hqcnt : flatIdx c q < c.entriesCount := flatIdx_lt c q hqx hqy hqz
    have hqlen : flatIdx c q / (64 / c.directBpe) < data2.length := by
      rw [hdlen, List.length_replicate]
      exact flat_lt_dataLen hqcnt hepl
    rw [getFromData_eq c data2 c.directBpe q hb1 hb2b hqlen]
    dsimp only
    have hkne : flatIdx c q ≠ flatIdx c pos := by
      intro hf
      exact hne (flatIdx_inj c q pos hqx hqz hx hz hf)
    rw [hother _ hkne, entryRead_replicate_zero, i32OfU64_zero]

/-- C4 counterexample: with the Biomes config (direct width 6 bits),
writing id 64 from SingleValued(0) is truncated by the write mask, and
reading the position back yields 0, not 64 — the claim as stated (for
arbitrary non-zero ids) is false. -/
theorem c4_truncated_id_not_read_back :
    Palette.set biomesConfig (.singleValued 0) ⟨0, 0, 0⟩ 64 =
        some (.direct 6 (List.replicate 7 0), 0) ∧
      Palette.get biomesConfig (.direct 6 (List.replicate 7 0)) ⟨0, 0, 0⟩ =
        some 0 ∧ (64 : Int) ≠ 0 := by
  decide

/-- C4 witness: the amended statement at the Biomes config, position
(1,2,3), id 5. -/
theorem c4_single_promotion_witness :
    ∃ data2, Palette.set biomesConfig (.singleValued 0) ⟨1, 2, 3⟩ 5 =
        some (.direct biomesConfig.directBpe data2, 0) ∧
      Palette.get biomesConfig (.direct biomesConfig.directBpe data2) ⟨1, 2, 3⟩ =
        some 5 ∧
      ∀ q : LocalPos, q.x < biomesConfig.entriesPerAxe →
        q.y < biomesConfig.entriesPerAxe → q.z < biomesConfig.entriesPerAxe →
        q ≠ ⟨1, 2, 3⟩ →
        Palette.get biomesConfig (.direct biomesConfig.directBpe data2) q =
          some 0 :=
  c4_single_promotion_readback biomesConfig ⟨1, 2, 3⟩ 5 (by decide) (by decide)
    (by decide) (by decide) (by decide) (by decide) (by decide)

end MBot

namespace MBot

open MData

/-! ### Correctness of the re-packing loop -/

/-- The (long index, offset) pair the re-packing loop stores for one side
after `k` completed iterations (before the rollover check of the next
iteration). -/
def storedOld (bpe k : Nat) : Nat × Nat :=
  if k = 0 then (0, 0)
  else ((k - 1) / (64 / bpe), bpe * ((k - 1) % (64 / bpe)) + bpe)

/-- The rollover check at the top of iteration `k` turns the stored pair
into word `k / (64 / bpe)` and offset `bpe * (k % (64 / bpe))`. -/
theorem storedOld_if (bpe k : Nat) (h1 : 1 ≤ bpe) (h2 : bpe ≤ 63) :
    (if 64 < (storedOld bpe k).2 + bpe
     then ((storedOld bpe k).1 + 1, 0)
     else storedOld bpe k) = (k / (64 / bpe), bpe * (k % (64 / bpe))) := by
  have hepl : 0 < 64 / bpe := epl_pos h1 h2
  have hdm := Nat.div_add_mod 64 bpe
  have hmlt := Nat.mod_lt 64 (show 0 < bpe by omega)
  rcases Nat.eq_zero_or_pos k with hk | hk
  · subst hk
    have hst : storedOld bpe 0 = (0, 0) := by
      unfold storedOld
      rw [if_pos rfl]
    rw [hst]
    dsimp only
    rw [if_neg (by omega)]
    simp
  · have hst : storedOld bpe k =
        ((k - 1) / (64 / bpe), bpe * ((k - 1) % (64 / bpe)) + bpe) := by
      unfold storedOld
      rw [if_neg (by omega)]
    rw [hst]
    dsimp only
    have hjm := Nat.div_add_mod (k - 1) (64 / bpe)
    have hjlt : (k - 1) % (64 / bpe) < 64 / bpe := Nat.mod_lt _ hepl
    by_cases hlast : (k - 1) % (64 / bpe) = 64 / bpe - 1
    · have hdiv : k = ((k - 1) / (64 / bpe) + 1) * (64 / bpe) := by
        have hr : ((k - 1) / (64 / bpe) + 1) * (64 / bpe) =
            64 / bpe * ((k - 1) / (64 / bpe)) + 64 / bpe := by ring
        omega
      have hkd : k / (64 / bpe) = (k - 1) / (64 / bpe) + 1 := by
        nth_rewrite 1 [hdiv]
        rw [Nat.mul_div_cancel _ hepl]
      have hkm : k % (64 / bpe) = 0 := by
        rw [hdiv, Nat.mul_mod_left]
      have hco : 64 < bpe * ((k - 1) % (64 / bpe)) + bpe + bpe := by
        have e2 : bpe * ((k - 1) % (64 / bpe)) + bpe =
            bpe * ((k - 1) % (64 / bpe) + 1) := by ring
        have e3 : (k - 1) % (64 / bpe) + 1 = 64 / bpe := by omega
        rw [e2, e3]
        omega
      rw [if_pos hco, hkd, hkm, Nat.mul_zero]
    · have hm2 : (k - 1) % (64 / bpe) + 1 < 64 / bpe := by omega
      have hrep : k = 64 / bpe * ((k - 1) / (64 / bpe)) +
          ((k - 1) % (64 / bpe) + 1) := by omega
      have hkd : k / (64 / bpe) = (k - 1) / (64 / bpe) := by
        nth_rewrite 1 [hrep]
        rw [Nat.mul_add_div hepl, Nat.div_eq_of_lt hm2, Nat.add_zero]
      have hkm : k % (64 / bpe) = (k - 1) % (64 / bpe) + 1 := by
        nth_rewrite 1 [hrep]
        rw [Nat.mul_add_mod, Nat.mod_eq_of_lt hm2]
      have hnco : ¬ 64 < bpe * ((k - 1) % (64 / bpe)) + bpe + bpe := by
        have e1 : bpe * ((k - 1) % (64 / bpe)) + bpe + bpe =
            bpe * ((k - 1) % (64 / bpe) + 2) := by ring
        have e2 : bpe * ((k - 1) % (64 / bpe) + 2) ≤ bpe * (64 / bpe) :=
          Nat.mul_le_mul_left _ (by omega)
        have e3 : bpe * (64 / bpe) ≤ 64 := by
          calc bpe * (64 / bpe) = 64 / bpe * bpe := by ring
          _ ≤ 64 := Nat.div_mul_le_self 64 bpe
        omega
      rw [if_neg hnco, hkd, hkm]
      have : bpe * ((k - 1) % (64 / bpe) + 1) =
          bpe * ((k - 1) % (64 / bpe)) + bpe := by ring
      rw [this]

end MBot

namespace MBot

open MData

/-- One iteration of the re-packing loop, started from a state whose
rollover-normalized offsets point at entry `k`: it reads entry `k` of the
old array, maps it, writes it as entry `k` of the new array, and leaves
the stored offsets pointing at entry `k + 1`. -/
theorem rebStep_spec (c : PaletteConfig) (obpe nbpe : Nat)
    (mapFn : Int → Option Int) (data : List Nat) (k ol oo nl no : Nat)
    (nd : List Nat) (y : Int)
    (ho1 : 1 ≤ obpe) (ho2 : obpe ≤ 63) (hn1 : 1 ≤ nbpe) (hn2 : nbpe ≤ 63)
    (hk : k < c.entriesCount)
    (hdlen : divCeil c.entriesCount (64 / obpe) ≤ data.length)
    (hndlen : nd.length = divCeil c.entriesCount (64 / nbpe))
    (hno1 : (if 64 < oo + obpe then (ol + 1, 0) else (ol, oo)) =
      (k / (64 / obpe), obpe * (k % (64 / obpe))))
    (hno2 : (if 64 < no + nbpe then (nl + 1, 0) else (nl, no)) =
      (k / (64 / nbpe), nbpe * (k % (64 / nbpe))))
    (hy : mapFn (i32OfU64 (entryRead data obpe k)) = some y) :
    rebStep obpe nbpe mapFn data ⟨ol, oo, nl, no, nd⟩ =
      some ⟨k / (64 / obpe), obpe * (k % (64 / obpe)) + obpe,
        k / (64 / nbpe), nbpe * (k % (64 / nbpe)) + nbpe,
        nd.set (k / (64 / nbpe))
          (wipeWindow (nd.getD (k / (64 / nbpe)) 0)
              (nbpe * (k % (64 / nbpe))) nbpe |||
            (u64OfI32 y <<< (nbpe * (k % (64 / nbpe)))) % 2 ^ 64)⟩ := by
  have h1 : (if 64 < oo + obpe then ol + 1 else ol) = k / (64 / obpe) := by
    have := congrArg Prod.fst hno1
    simpa [apply_ite Prod.fst] using this
  have h2 : (if 64 < oo + obpe then 0 else oo) = obpe * (k % (64 / obpe)) := by
    have := congrArg Prod.snd hno1
    simpa [apply_ite Prod.snd] using this
  have h3 : (if 64 < no + nbpe then nl + 1 else nl) = k / (64 / nbpe) := by
    have := congrArg Prod.fst hno2
    simpa [apply_ite Prod.fst] using this
  have h4 : (if 64 < no + nbpe then 0 else no) = nbpe * (k % (64 / nbpe)) := by
    have := congrArg Prod.snd hno2
    simpa [apply_ite Prod.snd] using this
  have hoepl : 0 < 64 / obpe := epl_pos ho1 ho2
  have hnepl : 0 < 64 / nbpe := epl_pos hn1 hn2
  have hrd : k / (64 / obpe) < data.length :=
    lt_of_lt_of_le (flat_lt_dataLen hk hoepl) hdlen
  have hwd : k / (64 / nbpe) < nd.length := by
    rw [hndlen]
    exact flat_lt_dataLen hk hnepl
  unfold rebStep
  dsimp only
  have hst1 : (if 64 < oo + obpe
      then (⟨ol + 1, 0, nl, no, nd⟩ : RebSt)
      else (⟨ol, oo, nl, no, nd⟩ : RebSt)) =
      (⟨k / (64 / obpe), obpe * (k % (64 / obpe)), nl, no, nd⟩ : RebSt) := by
    rw [← h1, ← h2]
    by_cases hc : 64 < oo + obpe <;> simp [hc]
  rw [hst1]
  dsimp only
  have hst2 : (if 64 < no + nbpe
      then (⟨k / (64 / obpe), obpe * (k % (64 / obpe)), nl + 1, 0, nd⟩ : RebSt)
      else (⟨k / (64 / obpe), obpe * (k % (64 / obpe)), nl, no, nd⟩ : RebSt)) =
      (⟨k / (64 / obpe), obpe * (k % (64 / obpe)), k / (64 / nbpe),
        nbpe * (k % (64 / nbpe)), nd⟩ : RebSt) := by
    rw [← h3, ← h4]
    by_cases hc : 64 < no + nbpe <;> simp [hc]
  rw [hst2]
  dsimp only
  rw [getD_eq_of_getElem hrd]
  dsimp only
  have hval : data.getD (k / (64 / obpe)) 0 >>> (obpe * (k % (64 / obpe))) &&&
      (1 <<< obpe - 1) = entryRead data obpe k := rfl
  rw [hval, hy]
  dsimp only
  rw [getD_eq_of_getElem hwd]
  dsimp only
  rfl

end MBot

namespace MBot

open MData

theorem canonical_next (bpe k : Nat) (h1 : 1 ≤ bpe) (h2 : bpe ≤ 63) :
    (if 64 < bpe * (k % (64 / bpe)) + bpe + bpe
     then (k / (64 / bpe) + 1, 0)
     else (k / (64 / bpe), bpe * (k % (64 / bpe)) + bpe)) =
    ((k + 1) / (64 / bpe), bpe * ((k + 1) % (64 / bpe))) := by
  have h := storedOld_if bpe (k + 1) h1 h2
  have hs : storedOld bpe (k + 1) =
      (k / (64 / bpe), bpe * (k % (64 / bpe)) + bpe) := by
    unfold storedOld
    rw [if_neg (by omega)]
    simp
  rw [hs] at h
  simpa using h

theorem rebuildLoop_spec (c : PaletteConfig) (obpe nbpe : Nat)
    (mapFn : Int → Option Int) (data : List Nat) (mval : Nat → Nat)
    (ho1 : 1 ≤ obpe) (ho2 : obpe ≤ 63) (hn1 : 1 ≤ nbpe) (hn2 : nbpe ≤ 63)
    (hdlen : divCeil c.entriesCount (64 / obpe) ≤ data.length)
    (hmv : ∀ k, k < c.entriesCount →
      ∃ y, mapFn (i32OfU64 (entryRead data obpe k)) = some y ∧
        u64OfI32 y = mval k ∧ mval k < 2 ^ nbpe) :
    ∀ (n k ol oo nl no : Nat) (nd : List Nat),
      k + n = c.entriesCount →
      (if 64 < oo + obpe then (ol + 1, 0) else (ol, oo)) =
        (k / (64 / obpe), obpe * (k % (64 / obpe))) →
      (if 64 < no + nbpe then (nl + 1, 0) else (nl, no)) =
        (k / (64 / nbpe), nbpe * (k % (64 / nbpe))) →
      nd.length = divCeil c.entriesCount (64 / nbpe) →
      (∀ j, j < c.entriesCount →
        entryRead nd nbpe j = if j < k then mval j else 0) →
      ∃ st2, rebuildLoop obpe nbpe mapFn data n ⟨ol, oo, nl, no, nd⟩ =
          some st2 ∧
        st2.newData.length = divCeil c.entriesCount (64 / nbpe) ∧
        ∀ j, j < c.entriesCount → entryRead st2.newData nbpe j = mval j := by
  intro n
  induction n with
  | zero =>
    intro k ol oo nl no nd hk hno1 hno2 hndlen hinv
    refine ⟨⟨ol, oo, nl, no, nd⟩, rfl, hndlen, ?_⟩
    intro j hj
    rw [hinv j hj, if_pos (by omega)]
  | succ n ih =>
    intro k ol oo nl no nd hk hno1 hno2 hndlen hinv
    have hkc : k < c.entriesCount := by omega
    have hnepl : 0 < 64 / nbpe := epl_pos hn1 hn2
    have hwd : k / (64 / nbpe) < nd.length := by
      rw [hndlen]
      exact flat_lt_dataLen hkc hnepl
    obtain ⟨y, hy, hu, hb⟩ := hmv k hkc
    rw [rebuildLoop]
    rw [rebStep_spec c obpe nbpe mapFn data k ol oo nl no nd y ho1 ho2 hn1 hn2
      hkc hdlen hndlen hno1 hno2 hy]
    dsimp only
    have hub : u64OfI32 y < 2 ^ nbpe := by rw [hu]; exact hb
    have hinv2 : ∀ j, j < c.entriesCount →
        entryRead (nd.set (k / (64 / nbpe))
          (wipeWindow (nd.getD (k / (64 / nbpe)) 0)
              (nbpe * (k % (64 / nbpe))) nbpe |||
            (u64OfI32 y <<< (nbpe * (k % (64 / nbpe)))) % 2 ^ 64)) nbpe j =
          if j < k + 1 then mval j else 0 := by
      intro j hj
      by_cases hL : j / (64 / nbpe) = k / (64 / nbpe)
      · unfold entryRead
        rw [hL, getD_set_self hwd]
        by_cases hjk : j = k
        · subst hjk
          rw [read_wipe_or_same _ _ _ _
            (off_bound hn1 (Nat.mod_lt _ hnepl)) hub]
          rw [hu, if_pos (by omega)]
        · have hmne : j % (64 / nbpe) ≠ k % (64 / nbpe) := by
            intro hmeq
            apply hjk
            have ha := Nat.div_add_mod j (64 / nbpe)
            have hbb := Nat.div_add_mod k (64 / nbpe)
            rw [hL, hmeq] at ha
            omega
          have hdisj : nbpe * (j % (64 / nbpe)) + nbpe ≤
                nbpe * (k % (64 / nbpe)) ∨
              nbpe * (k % (64 / nbpe)) + nbpe ≤ nbpe * (j % (64 / nbpe)) := by
            rcases Nat.lt_or_ge (j % (64 / nbpe)) (k % (64 / nbpe))
              with hlt | hge
            · left
              calc nbpe * (j % (64 / nbpe)) + nbpe =
                  nbpe * (j % (64 / nbpe) + 1) := by ring
              _ ≤ nbpe * (k % (64 / nbpe)) := Nat.mul_le_mul_left _ (by omega)
            · right
              calc nbpe * (k % (64 / nbpe)) + nbpe =
                  nbpe * (k % (64 / nbpe) + 1) := by ring
              _ ≤ nbpe * (j % (64 / nbpe)) := Nat.mul_le_mul_left _ (by omega)
          rw [read_wipe_or_other _ _ _ _ _ _ hub
            (off_bound hn1 (Nat.mod_lt j hnepl)) hdisj]
          have hfold : readW (nd.getD (k / (64 / nbpe)) 0)
              (nbpe * (j % (64 / nbpe))) nbpe = entryRead nd nbpe j := by
            unfold entryRead
            rw [hL]
          rw [hfold, hinv j hj]
          by_cases hjlt : j < k
          · rw [if_pos hjlt, if_pos (by omega)]
          · rw [if_neg hjlt, if_neg (by omega)]
      · unfold entryRead
        rw [getD_set_ne (fun hh => hL hh.symm)]
        have hjk : j ≠ k := fun hh => hL (by rw [hh])
        have := hinv j hj
        unfold entryRead at this
        rw [this]
        by_cases hjlt : j < k
        · rw [if_pos hjlt, if_pos (by omega)]
        · rw [if_neg hjlt, if_neg (by omega)]
    exact ih (k + 1) _ _ _ _ _ (by omega)
      (by
        have := canonical_next obpe k ho1 ho2
        simpa using this)
      (by
        have := canonical_next nbpe k hn1 hn2
        simpa using this)
      (by rw [List.length_set]; exact hndlen)
      hinv2

theorem indirectRebuildMap_spec (c : PaletteConfig) (obpe nbpe : Nat)
    (mapFn : Int → Option Int) (data : List Nat) (mval : Nat → Nat)
    (ho1 : 1 ≤ obpe) (ho2 : obpe ≤ 63) (hn1 : 1 ≤ nbpe) (hn2 : nbpe ≤ 63)
    (hdlen : divCeil c.entriesCount (64 / obpe) ≤ data.length)
    (hmv : ∀ k, k < c.entriesCount →
      ∃ y, mapFn (i32OfU64 (entryRead data obpe k)) = some y ∧
        u64OfI32 y = mval k ∧ mval k < 2 ^ nbpe) :
    ∃ nd2, indirectRebuildMap c obpe nbpe mapFn data = some nd2 ∧
      nd2.length = divCeil c.entriesCount (64 / nbpe) ∧
      ∀ j, j < c.entriesCount → entryRead nd2 nbpe j = mval j := by
  have hz1 : (if 64 < 0 + obpe then (0 + 1, 0) else (0, 0)) =
      ((0 : Nat) / (64 / obpe), obpe * (0 % (64 / obpe))) := by
    rw [if_neg (by omega)]
    simp
  have hz2 : (if 64 < 0 + nbpe then (0 + 1, 0) else (0, 0)) =
      ((0 : Nat) / (64 / nbpe), nbpe * (0 % (64 / nbpe))) := by
    rw [if_neg (by omega)]
    simp
  obtain ⟨st2, hloop, hlen2, hread⟩ :=
    rebuildLoop_spec c obpe nbpe mapFn data mval ho1 ho2 hn1 hn2 hdlen hmv
      c.entriesCount 0 0 0 0 0
      (List.replicate (divCeil c.entriesCount (64 / nbpe)) 0)
      (by omega) hz1 hz2 (by rw [List.length_replicate])
      (by
        intro j hj
        rw [entryRead_replicate_zero]
        rw [if_neg (by omega)])
  unfold indirectRebuildMap
  rw [if_neg (by omega)]
  dsimp only
  rw [hloop]
  exact ⟨st2.newData, rfl, hlen2, hread⟩

end MBot

namespace MBot

open MData

theorem u64_i32_roundtrip {n : Nat} (h : n < 2 ^ 31) :
    u64OfI32 (i32OfU64 n) = n := by
  have hn64 : n < 2 ^ 64 := lt_of_lt_of_le h (by norm_num)
  have hi : ((n : Int)) < 2 ^ 64 := by exact_mod_cast hn64
  rw [i32OfU64_small h]
  rw [u64OfI32_nonneg (Int.natCast_nonneg n) hi]
  simp

theorem usize_i32_roundtrip {n : Nat} (h : n < 2 ^ 31) :
    usizeOfI32 (i32OfU64 n) = n := by
  have hn64 : n < 2 ^ 64 := lt_of_lt_of_le h (by norm_num)
  have hi : ((n : Int)) < 2 ^ 64 := by exact_mod_cast hn64
  rw [i32OfU64_small h]
  unfold usizeOfI32 toPattern
  rw [Int.emod_eq_of_lt (Int.natCast_nonneg n) hi]
  simp

theorem alGet_insert_self (m : List (Int × Nat)) (k : Int) (v : Nat) :
    alGet (alInsert m k v) k = some v := by
  unfold alGet alInsert
  rw [List.find?_cons_of_pos _ (by simp)]
  rfl

/-- `set_indirect` succeeds when the written id is in the dictionary, the
target word exists and the displaced code indexes `palette2id`; it writes
the masked code and leaves every other field unchanged. -/
theorem setIndirect_spec (c : PaletteConfig) (bpe : Nat)
    (id2palette : List (Int × Nat)) (palette2id : List Int) (data : List Nat)
    (pos : LocalPos) (id : Int) (pid : Nat)
    (hb1 : 1 ≤ bpe) (hb2 : bpe ≤ 63)
    (hget : alGet id2palette id = some pid)
    (hpid31 : pid < 2 ^ 31)
    (hlen : flatIdx c pos / (64 / bpe) < data.length)
    (hcode : entryRead data bpe (flatIdx c pos) < palette2id.length)
    (hc31 : entryRead data bpe (flatIdx c pos) < 2 ^ 31) :
    ∃ data2 old,
      setIndirect c bpe id2palette palette2id data pos id =
        some (data2, old) ∧
      data2.length = data.length ∧
      entryRead data2 bpe (flatIdx c pos) = pid &&& ((1 <<< bpe) - 1) ∧
      ∀ k, k ≠ flatIdx c pos → entryRead data2 bpe k = entryRead data bpe k := by
  obtain ⟨data2, hset, hdl, hsame, hother⟩ :=
    setFromData_spec c data bpe pos (i32OfU64 pid) hb1 hb2 hlen
  refine ⟨data2, palette2id.get ⟨entryRead data bpe (flatIdx c pos), hcode⟩,
    ?_, hdl, ?_, hother⟩
  · unfold setIndirect
    rw [hget]
    dsimp only
    rw [hset]
    dsimp only
    rw [usize_i32_roundtrip hc31,
      List.getElem?_eq_getElem hcode]
    rfl
  · rw [hsame, u64_i32_roundtrip hpid31]

end MBot

namespace MBot

open MData

/-- `Palette::get` on an Indirect palette at an in-bounds position with a
valid entry is the dictionary entry of the stored code. -/
theorem indirectGet_eq (c : PaletteConfig) (bpe : Nat) (palette2id : List Int)
    (id2palette : List (Int × Nat)) (data : List Nat) (q : LocalPos)
    (hb1 : 1 ≤ bpe) (hb2 : bpe ≤ 63)
    (hqx : q.x < c.entriesPerAxe) (hqy : q.y < c.entriesPerAxe)
    (hqz : q.z < c.entriesPerAxe)
    (hlen : flatIdx c q / (64 / bpe) < data.length)
    (hcode : entryRead data bpe (flatIdx c q) < palette2id.length) :
    Palette.get c (.indirect bpe palette2id id2palette data) q =
      some (palette2id.get ⟨entryRead data bpe (flatIdx c q), hcode⟩) := by
  unfold Palette.get
  rw [if_pos ⟨hqx, hqy, hqz⟩]
  dsimp only
  rw [getFromData_eq c data bpe q hb1 hb2 hlen]
  dsimp only
  rw [dif_pos hcode]

/-- C5: inserting a fresh id into an Indirect palette below the capacity
threshold — also when the bits-per-entry changes and the backing array is
re-packed — succeeds, stays Indirect with the dictionary extended by the
new id, re-establishes the representation invariants (array length and
code range), and preserves `get` at every other in-bounds position. -/
theorem c5_indirect_growth_preserves (c : PaletteConfig) (bpe : Nat)
    (palette2id : List Int) (id2palette : List (Int × Nat)) (data : List Nat)
    (pos : LocalPos) (id : Int)
    (hb1 : 1 ≤ bpe) (hb2 : bpe ≤ 63)
    (hL1 : 1 ≤ palette2id.length)
    (hmax : palette2id.length < c.maxIndirectEntries)
    (hcap : c.maxIndirectEntries ≤ 2 ^ 31)
    (hdlen : data.length = divCeil c.entriesCount (64 / bpe))
    (hcodes : ∀ k, k < c.entriesCount →
      entryRead data bpe k < palette2id.length)
    (hnew : alContains id2palette id = false)
    (hx : pos.x < c.entriesPerAxe) (hy : pos.y < c.entriesPerAxe)
    (hz : pos.z < c.entriesPerAxe) :
    ∃ bpe2 data3 old,
      Palette.set c (.indirect bpe palette2id id2palette data) pos id =
        some (.indirect bpe2 (palette2id ++ [id])
          (alInsert id2palette id palette2id.length) data3, old) ∧
      1 ≤ bpe2 ∧ bpe2 ≤ 31 ∧
      data3.length = divCeil c.entriesCount (64 / bpe2) ∧
      (∀ k, k < c.entriesCount →
        entryRead data3 bpe2 k < (palette2id ++ [id]).length) ∧
      ∀ q : LocalPos, q.x < c.entriesPerAxe → q.y < c.entriesPerAxe →
        q.z < c.entriesPerAxe → q ≠ pos →
        Palette.get c (.indirect bpe2 (palette2id ++ [id])
            (alInsert id2palette id palette2id.length) data3) q =
          Palette.get c (.indirect bpe palette2id id2palette data) q := by
  have hL31 : palette2id.length < 2 ^ 31 := by omega
  have hnb2 : bitLen palette2id.length ≤ 31 := bitLen_le _ 31 hL31
  have hnb1 : 1 ≤ bitLen palette2id.length := by
    unfold bitLen
    rw [if_neg (by omega)]
    omega
  have hnb : 64 - (64 - bitLen palette2id.length) = bitLen palette2id.length := by
    omega
  have hLpow : palette2id.length < 2 ^ bitLen palette2id.length := bitLen_lt _
  have hcnt : flatIdx c pos < c.entriesCount := flatIdx_lt c pos hx hy hz
  by_cases hne : bitLen palette2id.length ≠ bpe
  · -- the bits-per-entry changes: the array is re-packed first
    have hmv : ∀ k, k < c.entriesCount →
        ∃ y, (fun a => some a) (i32OfU64 (entryRead data bpe k)) = some y ∧
          u64OfI32 y = entryRead data bpe k ∧
          entryRead data bpe k < 2 ^ bitLen palette2id.length := by
      intro k hk
      refine ⟨i32OfU64 (entryRead data bpe k), rfl, ?_, ?_⟩
      · exact u64_i32_roundtrip (lt_trans (hcodes k hk) hL31)
      · exact lt_trans (hcodes k hk) hLpow
    obtain ⟨nd2, hreb, hnd2len, hnd2read⟩ :=
      indirectRebuildMap_spec c bpe (bitLen palette2id.length)
        (fun a => some a) data (fun k => entryRead data bpe k)
        hb1 hb2 hnb1 (by omega) (le_of_eq hdlen.symm) hmv
    have hposlen : flatIdx c pos / (64 / bitLen palette2id.length) <
        nd2.length := by
      rw [hnd2len]
      exact flat_lt_dataLen hcnt (epl_pos hnb1 (by omega))
    have hcodepos : entryRead nd2 (bitLen palette2id.length) (flatIdx c pos) =
        entryRead data bpe (flatIdx c pos) := hnd2read _ hcnt
    have hcodebd : entryRead nd2 (bitLen palette2id.length) (flatIdx c pos) <
        (palette2id ++ [id]).length := by
      rw [hcodepos, List.length_append, List.length_singleton]
      have := hcodes _ hcnt
      omega
    obtain ⟨data3, old, hsi, hd3len, hsame, hother⟩ :=
      setIndirect_spec c (bitLen palette2id.length)
        (alInsert id2palette id palette2id.length) (palette2id ++ [id])
        nd2 pos id palette2id.length hnb1 (by omega)
        (alGet_insert_self _ _ _) hL31 hposlen hcodebd
        (by rw [hcodepos]; exact lt_trans (hcodes _ hcnt) hL31)
    have hres : Palette.set c (.indirect bpe palette2id id2palette data)
        pos id =
        some (.indirect (bitLen palette2id.length) (palette2id ++ [id])
          (alInsert id2palette id palette2id.length) data3, old) := by
      simp only [Palette.set]
      rw [if_neg (by simp [hnew]), if_pos hmax]
      rw [hnb, if_pos hne]
      unfold indirectRebuild
      rw [hreb]
      dsimp only
      rw [hsi]
    refine ⟨bitLen palette2id.length, data3, old, hres, hnb1, hnb2, ?_, ?_, ?_⟩
    · rw [hd3len, hnd2len]
    · intro k hk
      rw [List.length_append, List.length_singleton]
      by_cases hkp : k = flatIdx c pos
      · subst hkp
        rw [hsame, Nat.one_shiftLeft, land_two_pow_sub_one,
          Nat.mod_eq_of_lt hLpow]
        omega
      · rw [hother _ hkp, hnd2read _ hk]
        have := hcodes _ hk
        omega
    · intro q hqx hqy hqz hqne
      have hqcnt : flatIdx c q < c.entriesCount := flatIdx_lt c q hqx hqy hqz
      have hkne : flatIdx c q ≠ flatIdx c pos := fun hf =>
        hqne (flatIdx_inj c q pos hqx hqz hx hz hf)
      have hcq : entryRead data3 (bitLen palette2id.length) (flatIdx c q) =
          entryRead data bpe (flatIdx c q) := by
        rw [hother _ hkne, hnd2read _ hqcnt]
      have hq3len : flatIdx c q / (64 / bitLen palette2id.length) <
          data3.length := by
        rw [hd3len, hnd2len]
        exact flat_lt_dataLen hqcnt (epl_pos hnb1 (by omega))
      have hqdlen : flatIdx c q / (64 / bpe) < data.length := by
        rw [hdlen]
        exact flat_lt_dataLen hqcnt (epl_pos hb1 hb2)
      have hcode3 : entryRead data3 (bitLen palette2id.length) (flatIdx c q) <
          (palette2id ++ [id]).length := by
        rw [hcq, List.length_append, List.length_singleton]
        have := hcodes _ hqcnt
        omega
      rw [indirectGet_eq c (bitLen palette2id.length) (palette2id ++ [id]) _
          data3 q hnb1 (by omega) hqx hqy hqz hq3len hcode3,
        indirectGet_eq c bpe palette2id id2palette data q hb1 hb2
          hqx hqy hqz hqdlen (hcodes _ hqcnt)]
      rw [List.get_eq_getElem, List.get_eq_getElem]
      dsimp only
      simp only [hcq]
      rw [List.getElem_append_left]
  · -- the bits-per-entry stays the same: the code is written in place
    rw [not_not] at hne
    have hposlen : flatIdx c pos / (64 / bpe) < data.length := by
      rw [hdlen]
      exact flat_lt_dataLen hcnt (epl_pos hb1 hb2)
    have hcodebd : entryRead data bpe (flatIdx c pos) <
        (palette2id ++ [id]).length := by
      rw [List.length_append, List.length_singleton]
      have := hcodes _ hcnt
      omega
    obtain ⟨data3, old, hsi, hd3len, hsame, hother⟩ :=
      setIndirect_spec c bpe (alInsert id2palette id palette2id.length)
        (palette2id ++ [id]) data pos id palette2id.length hb1 hb2
        (alGet_insert_self _ _ _) hL31 hposlen hcodebd
        (lt_trans (hcodes _ hcnt) hL31)
    have hres : Palette.set c (.indirect bpe palette2id id2palette data)
        pos id =
        some (.indirect bpe (palette2id ++ [id])
          (alInsert id2palette id palette2id.length) data3, old) := by
      simp only [Palette.set]
      rw [if_neg (by simp [hnew]), if_pos hmax]
      rw [hnb, if_neg (by simp [hne])]
      rw [hsi]
    refine ⟨bpe, data3, old, hres, hb1, by omega, ?_, ?_, ?_⟩
    · rw [hd3len, hdlen]
    · intro k hk
      rw [List.length_append, List.length_singleton]
      by_cases hkp : k = flatIdx c pos
      · subst hkp
        rw [hsame, Nat.one_shiftLeft, land_two_pow_sub_one,
          Nat.mod_eq_of_lt (hne ▸ hLpow)]
        omega
      · rw [hother _ hkp]
        have := hcodes _ hk
        omega
    · intro q hqx hqy hqz hqne
      have hqcnt : flatIdx c q < c.entriesCount := flatIdx_lt c q hqx hqy hqz
      have hkne : flatIdx c q ≠ flatIdx c pos := fun hf =>
        hqne (flatIdx_inj c q pos hqx hqz hx hz hf)
      have hcq : entryRead data3 bpe (flatIdx c q) =
          entryRead data bpe (flatIdx c q) := hother _ hkne
      have hq3len : flatIdx c q / (64 / bpe) < data3.length := by
        rw [hd3len]
        rw [hdlen]
        exact flat_lt_dataLen hqcnt (epl_pos hb1 hb2)
      have hqdlen : flatIdx c q / (64 / bpe) < data.length := by
        rw [hdlen]
        exact flat_lt_dataLen hqcnt (epl_pos hb1 hb2)
      have hcode3 : entryRead data3 bpe (flatIdx c q) <
          (palette2id ++ [id]).length := by
        rw [hcq, List.length_append, List.length_singleton]
        have := hcodes _ hqcnt
        omega
      rw [indirectGet_eq c bpe (palette2id ++ [id]) _ data3 q hb1 hb2
          hqx hqy hqz hq3len hcode3,
        indirectGet_eq c bpe palette2id id2palette data q hb1 hb2
          hqx hqy hqz hqdlen (hcodes _ hqcnt)]
      rw [List.get_eq_getElem, List.get_eq_getElem]
      dsimp only
      simp only [hcq]
      rw [List.getElem_append_left]

end MBot

namespace MBot

open MData

/-- C5 witness: the Biomes config, a 1-bit Indirect palette with the
two-entry dictionary `[10, 20]` and backing word `5`; inserting the fresh
id `30` grows the code width and preserves every other position. -/
theorem c5_indirect_growth_witness :
    ∃ bpe2 data3 old,
      Palette.set biomesConfig
          (.indirect 1 [10, 20] [(10, 0), (20, 1)] [5]) ⟨0, 0, 0⟩ 30 =
        some (.indirect bpe2 (([10, 20] : List Int) ++ [30])
          (alInsert [(10, 0), (20, 1)] 30 ([10, 20] : List Int).length)
          data3, old) ∧
      1 ≤ bpe2 ∧ bpe2 ≤ 31 ∧
      data3.length = divCeil biomesConfig.entriesCount (64 / bpe2) ∧
      (∀ k, k < biomesConfig.entriesCount →
        entryRead data3 bpe2 k < (([10, 20] : List Int) ++ [30]).length) ∧
      ∀ q : LocalPos, q.x < biomesConfig.entriesPerAxe →
        q.y < biomesConfig.entriesPerAxe → q.z < biomesConfig.entriesPerAxe →
        q ≠ ⟨0, 0, 0⟩ →
        Palette.get biomesConfig
            (.indirect bpe2 (([10, 20] : List Int) ++ [30])
              (alInsert [(10, 0), (20, 1)] 30 ([10, 20] : List Int).length)
              data3) q =
          Palette.get biomesConfig
            (.indirect 1 [10, 20] [(10, 0), (20, 1)] [5]) q :=
  c5_indirect_growth_preserves biomesConfig 1 [10, 20] [(10, 0), (20, 1)] [5]
    ⟨0, 0, 0⟩ 30 (by decide) (by decide) (by decide) (by decide) (by decide)
    (by decide) (by decide) (by decide) (by decide) (by decide) (by decide)

end MBot

namespace MBot

open MData

/-! ### String deserialization (src/datatypes/mod.rs, impl Deserialize
for String)

`utf8CharWidth` is the `UTF8_CHAR_WIDTH` table, `strReadChars` the
character-counted read loop, and `utf8Decode` the `String::from_utf8`
validation (RFC 3629) producing the scalar values. -/

/-- The `UTF8_CHAR_WIDTH` table as a function of the lead byte. -/
def utf8CharWidth (b : Nat) : Nat :=
  if b < 0x80 then 1
  else if b < 0xC2 then 0
  else if b < 0xE0 then 2
  else if b < 0xF0 then 3
  else if b < 0xF5 then 4
  else 0

/-- The `for _ in 0..n` loop of `<String as Deserialize>::deserialize`:
read a lead byte, reject widths outside `1..=3`, read the continuation
bytes, and accumulate everything. -/
def strReadChars : Nat → DataStream → Except DeErr (List Nat × DataStream)
  | 0, ds => .ok ([], ds)
  | n + 1, ds =>
    match dsReadExact 1 ds with
    | .error e => .error e
    | .ok (bs, ds1) =>
      let b := bs.headD 0
      let width := utf8CharWidth b
      if 1 ≤ width ∧ width ≤ 3 then
        match dsReadExact (width - 1) ds1 with
        | .error e => .error e
        | .ok (bs2, ds2) =>
          match strReadChars n ds2 with
          | .error e => .error e
          | .ok (bs3, ds3) => .ok (b :: (bs2 ++ bs3), ds3)
      else .error .malformedPacket

/-- One step of the `String::from_utf8` validation: the scalar value and
width of the first UTF-8 sequence of the list (RFC 3629 ranges,
surrogates and over-long forms rejected). -/
def utf8DecodeChar (l : List Nat) : Option (Nat × Nat) :=
  match l[0]? with
  | none => none
  | some b =>
    if b < 0x80 then some (b, 1)
    else if 0xC2 ≤ b ∧ b < 0xE0 then
      match l[1]? with
      | none => none
      | some b1 =>
        if 0x80 ≤ b1 ∧ b1 < 0xC0 then
          some ((b - 0xC0) * 64 + (b1 - 0x80), 2)
        else none
    else if 0xE0 ≤ b ∧ b < 0xF0 then
      match l[1]?, l[2]? with
      | some b1, some b2 =>
        if (0x80 ≤ b1 ∧ b1 < 0xC0) ∧ (b = 0xE0 → 0xA0 ≤ b1) ∧
            (b = 0xED → b1 < 0xA0) ∧ 0x80 ≤ b2 ∧ b2 < 0xC0 then
          some ((b - 0xE0) * 4096 + (b1 - 0x80) * 64 + (b2 - 0x80), 3)
        else none
      | _, _ => none
    else if 0xF0 ≤ b ∧ b < 0xF5 then
      match l[1]?, l[2]?, l[3]? with
      | some b1, some b2, some b3 =>
        if (0x80 ≤ b1 ∧ b1 < 0xC0) ∧ (b = 0xF0 → 0x90 ≤ b1) ∧
            (b = 0xF4 → b1 < 0x90) ∧ (0x80 ≤ b2 ∧ b2 < 0xC0) ∧
            (0x80 ≤ b3 ∧ b3 < 0xC0) then
          some ((b - 0xF0) * 262144 + (b1 - 0x80) * 4096 +
            (b2 - 0x80) * 64 + (b3 - 0x80), 4)
        else none
      | _, _, _ => none
    else none

/-- `String::from_utf8` as a validating decoder to scalar values: decode
one sequence at a time until the list is exhausted. -/
def utf8Decode : List Nat → Option (List Nat)
  | [] => some []
  | b :: rest =>
    match utf8DecodeChar (b :: rest) with
    | none => none
    | some (c, w) =>
      match utf8Decode (List.drop (w - 1) rest) with
      | none => none
      | some s => some (c :: s)
termination_by l => l.length
decreasing_by
  simp only [List.length_cons, List.length_drop]
  omega

/-- Model of `<String as Deserialize>::deserialize`: VarInt character
count (negative is malformed), the counted read loop, then the
`from_utf8` validation. -/
def stringDeserialize (ds : DataStream) : Except DeErr (List Nat × DataStream) :=
  match varDeserialize 32 5 ds with
  | .error e => .error e
  | .ok (n, ds1) =>
    if 0 ≤ n then
      match strReadChars n.toNat ds1 with
      | .error e => .error e
      | .ok (bytes, ds2) =>
        match utf8Decode bytes with
        | none => .error .malformedPacket
        | some s => .ok (s, ds2)
    else .error .malformedPacket

theorem utf8EncodeChar_one {c : Nat} (h : c < 0x80) :
    utf8EncodeChar c = [c] := by
  unfold utf8EncodeChar
  rw [if_pos h]

theorem utf8EncodeChar_two {c : Nat} (h0 : 0x80 ≤ c) (h1 : c < 0x800) :
    utf8EncodeChar c = [0xC0 + c / 64, 0x80 + c % 64] := by
  unfold utf8EncodeChar
  rw [if_neg (by omega), if_pos h1]

theorem utf8EncodeChar_three {c : Nat} (h0 : 0x800 ≤ c) (h1 : c < 0x10000) :
    utf8EncodeChar c =
      [0xE0 + c / 4096, 0x80 + c / 64 % 64, 0x80 + c % 64] := by
  unfold utf8EncodeChar
  rw [if_neg (by omega), if_neg (by omega), if_pos h1]

theorem utf8EncodeChar_four {c : Nat} (h0 : 0x10000 ≤ c) :
    utf8EncodeChar c =
      [0xF0 + c / 262144, 0x80 + c / 4096 % 64, 0x80 + c / 64 % 64,
        0x80 + c % 64] := by
  unfold utf8EncodeChar
  rw [if_neg (by omega), if_neg (by omega), if_neg (by omega)]

theorem strBytes_cons (c : Nat) (s : List Nat) :
    strBytes (c :: s) = utf8EncodeChar c ++ strBytes s := by
  unfold strBytes
  rw [List.map_cons, List.flatten_cons]

theorem strBytes_append (s t : List Nat) :
    strBytes (s ++ t) = strBytes s ++ strBytes t := by
  unfold strBytes
  rw [List.map_append, List.flatten_append]

end MBot

namespace MBot

open MData

theorem utf8CharWidth_one {b : Nat} (h : b < 0x80) : utf8CharWidth b = 1 := by
  unfold utf8CharWidth
  rw [if_pos h]

theorem utf8CharWidth_two {b : Nat} (h0 : 0xC2 ≤ b) (h1 : b < 0xE0) :
    utf8CharWidth b = 2 := by
  unfold utf8CharWidth
  rw [if_neg (by omega), if_neg (by omega), if_pos h1]

theorem utf8CharWidth_three {b : Nat} (h0 : 0xE0 ≤ b) (h1 : b < 0xF0) :
    utf8CharWidth b = 3 := by
  unfold utf8CharWidth
  rw [if_neg (by omega), if_neg (by omega), if_neg (by omega), if_pos h1]

theorem utf8CharWidth_four {b : Nat} (h0 : 0xF0 ≤ b) (h1 : b < 0xF5) :
    utf8CharWidth b = 4 := by
  unfold utf8CharWidth
  rw [if_neg (by omega), if_neg (by omega), if_neg (by omega),
    if_neg (by omega), if_pos h1]

theorem dsReadExact_cons (b : Nat) (tl : List Nat) (rem : Nat) (h : 1 ≤ rem) :
    dsReadExact 1 ⟨b :: tl, rem⟩ = .ok ([b], ⟨tl, rem - 1⟩) := by
  unfold dsReadExact
  rw [if_pos ⟨h, by simp⟩]
  simp

theorem dsReadExact_zero (ds : DataStream) :
    dsReadExact 0 ds = .ok ([], ds) := by
  unfold dsReadExact
  rw [if_pos ⟨Nat.zero_le _, Nat.zero_le _⟩]
  simp

theorem dsReadExact_two (b1 b2 : Nat) (tl : List Nat) (rem : Nat)
    (h : 2 ≤ rem) :
    dsReadExact 2 ⟨b1 :: b2 :: tl, rem⟩ = .ok ([b1, b2], ⟨tl, rem - 2⟩) := by
  unfold dsReadExact
  rw [if_pos ⟨h, by simp⟩]
  simp

/-- One iteration of the character-counted read loop consumes exactly the
UTF-8 encoding of a 1–3-byte character. -/
theorem strReadChars_step (c : Nat) (hc : c < 0x10000) (m : Nat)
    (tail : List Nat) (rem : Nat)
    (hrem : (utf8EncodeChar c).length ≤ rem) :
    strReadChars (m + 1) ⟨utf8EncodeChar c ++ tail, rem⟩ =
      match strReadChars m ⟨tail, rem - (utf8EncodeChar c).length⟩ with
      | .error e => .error e
      | .ok (bs, ds) => .ok (utf8EncodeChar c ++ bs, ds) := by
  by_cases h1 : c < 0x80
  · rw [utf8EncodeChar_one h1] at hrem ⊢
    simp only [List.length_singleton] at hrem ⊢
    simp only [strReadChars, List.cons_append, List.nil_append,
      dsReadExact_cons _ _ _ (show 1 ≤ rem by omega)]
    simp only [List.headD_cons]
    rw [utf8CharWidth_one h1, if_pos (by omega)]
    simp only [Nat.sub_self, dsReadExact_zero]
    rcases hres : strReadChars m ⟨tail, rem - 1⟩ with e | ⟨bs, ds⟩
    · rfl
    · rfl
  · by_cases h2 : c < 0x800
    · rw [utf8EncodeChar_two (by omega) h2] at hrem ⊢
      simp only [List.length_cons, List.length_singleton, List.length_nil] at hrem ⊢
      simp only [strReadChars, List.cons_append, List.nil_append,
        dsReadExact_cons _ _ _ (show 1 ≤ rem by omega)]
      simp only [List.headD_cons]
      rw [utf8CharWidth_two (b := 0xC0 + c / 64) (by omega) (by omega),
        if_pos (by omega)]
      have h21 : (2 : Nat) - 1 = 1 := by norm_num
      rw [h21]
      simp only [dsReadExact_cons _ _ _ (show 1 ≤ rem - 1 by omega)]
      have hr2 : rem - 1 - 1 = rem - (0 + 1 + 1) := by omega
      rw [hr2]
      rcases hres : strReadChars m ⟨tail, rem - (0 + 1 + 1)⟩ with e | ⟨bs, ds⟩
      · rfl
      · rfl
    · rw [utf8EncodeChar_three (by omega) hc] at hrem ⊢
      simp only [List.length_cons, List.length_nil] at hrem ⊢
      simp only [strReadChars, List.cons_append, List.nil_append,
        dsReadExact_cons _ _ _ (show 1 ≤ rem by omega)]
      simp only [List.headD_cons]
      rw [utf8CharWidth_three (b := 0xE0 + c / 4096) (by omega) (by omega),
        if_pos (by omega)]
      have h31 : (3 : Nat) - 1 = 2 := by norm_num
      rw [h31]
      simp only [dsReadExact_two _ _ _ _ (show 2 ≤ rem - 1 by omega)]
      have hr3 : rem - 1 - 2 = rem - (0 + 1 + 1 + 1) := by omega
      rw [hr3]
      rcases hres : strReadChars m ⟨tail, rem - (0 + 1 + 1 + 1)⟩ with e | ⟨bs, ds⟩
      · rfl
      · rfl

/-- One iteration of the read loop rejects a 4-byte lead byte. -/
theorem strReadChars_reject (c : Nat) (hc : 0x10000 ≤ c) (hc2 : c < 0x110000)
    (m : Nat) (tail : List Nat) (rem : Nat) (hrem : 1 ≤ rem) :
    strReadChars (m + 1) ⟨utf8EncodeChar c ++ tail, rem⟩ =
      .error .malformedPacket := by
  rw [utf8EncodeChar_four hc]
  simp only [strReadChars, List.cons_append, List.nil_append,
    dsReadExact_cons _ _ _ hrem]
  simp only [List.headD_cons]
  rw [utf8CharWidth_four (b := 0xF0 + c / 262144) (by omega) (by omega)]
  rw [if_neg (by omega)]

end MBot

namespace MBot

open MData

/-- The read loop consumes the encoding of a 1–3-byte string prefix and
continues on the remainder. -/
theorem strReadChars_prefix :
    ∀ (s : List Nat), (∀ c ∈ s, c < 0x10000) →
      ∀ (k : Nat) (rest : List Nat) (rem : Nat), (strBytes s).length ≤ rem →
        strReadChars (s.length + k) ⟨strBytes s ++ rest, rem⟩ =
          match strReadChars k ⟨rest, rem - (strBytes s).length⟩ with
          | .error e => .error e
          | .ok (bs, ds) => .ok (strBytes s ++ bs, ds) := by
  intro s
  induction s with
  | nil =>
    intro hs k rest rem hrem
    simp only [strBytes, List.map_nil, List.flatten_nil, List.nil_append,
      List.length_nil, Nat.zero_add, Nat.sub_zero]
    rcases hres : strReadChars k ⟨rest, rem⟩ with e | ⟨bs, ds⟩
    · rfl
    · rfl
  | cons c s ih =>
    intro hs k rest rem hrem
    have hc : c < 0x10000 := hs c (List.mem_cons_self c s)
    have hs2 : ∀ d ∈ s, d < 0x10000 := fun d hd =>
      hs d (List.mem_cons_of_mem c hd)
    rw [strBytes_cons] at hrem ⊢
    rw [List.length_append] at hrem
    have hcount : (c :: s).length + k = s.length + k + 1 := by
      simp only [List.length_cons]
      omega
    rw [hcount, List.append_assoc]
    rw [strReadChars_step c hc (s.length + k) (strBytes s ++ rest) rem
      (by omega)]
    rw [ih hs2 k rest (rem - (utf8EncodeChar c).length) (by omega)]
    rw [List.length_append]
    have harith : rem - (utf8EncodeChar c).length - (strBytes s).length =
        rem - ((utf8EncodeChar c).length + (strBytes s).length) := by omega
    rw [harith]
    rcases hres : strReadChars k
        ⟨rest, rem - ((utf8EncodeChar c).length + (strBytes s).length)⟩ with
      e | ⟨bs, ds⟩
    · rfl
    · show Except.ok (utf8EncodeChar c ++ (strBytes s ++ bs), ds) =
        Except.ok (utf8EncodeChar c ++ strBytes s ++ bs, ds)
      rw [List.append_assoc]

/-- `utf8DecodeChar` on the encoding of a 1-byte scalar. -/
theorem utf8DecodeChar_enc_one {c : Nat} (h1 : c < 0x80) (tl : List Nat) :
    utf8DecodeChar (c :: tl) = some (c, 1) := by
  unfold utf8DecodeChar
  simp only [List.getElem?_cons_zero]
  rw [if_pos h1]

/-- `utf8DecodeChar` on the encoding of a 2-byte scalar. -/
theorem utf8DecodeChar_enc_two {c : Nat} (h0 : 0x80 ≤ c) (h1 : c < 0x800)
    (tl : List Nat) :
    utf8DecodeChar ((0xC0 + c / 64) :: (0x80 + c % 64) :: tl) =
      some (c, 2) := by
  unfold utf8DecodeChar
  simp only [List.getElem?_cons_zero, List.getElem?_cons_succ]
  rw [if_neg (by omega), if_pos (by omega), if_pos (by omega)]
  have hv : (0xC0 + c / 64 - 0xC0) * 64 + (0x80 + c % 64 - 0x80) = c := by
    omega
  rw [hv]

/-- `utf8DecodeChar` on the encoding of a 3-byte scalar (not a
surrogate). -/
theorem utf8DecodeChar_enc_three {c : Nat} (h0 : 0x800 ≤ c)
    (h1 : c < 0x10000) (hv : c < 0xD800 ∨ 0xE000 ≤ c) (tl : List Nat) :
    utf8DecodeChar ((0xE0 + c / 4096) :: (0x80 + c / 64 % 64) ::
        (0x80 + c % 64) :: tl) = some (c, 3) := by
  unfold utf8DecodeChar
  simp only [List.getElem?_cons_zero, List.getElem?_cons_succ]
  rw [if_neg (by omega), if_neg (by omega), if_pos (by omega),
    if_pos (by omega)]
  have hval : (0xE0 + c / 4096 - 0xE0) * 4096 +
      (0x80 + c / 64 % 64 - 0x80) * 64 + (0x80 + c % 64 - 0x80) = c := by
    omega
  rw [hval]

/-- `from_utf8` decodes the encoding of any list of valid scalar values
below `0x10000` back to the same list. -/
theorem utf8Decode_strBytes :
    ∀ (s : List Nat), (∀ c ∈ s, (c < 0xD800 ∨ 0xE000 ≤ c) ∧ c < 0x10000) →
      utf8Decode (strBytes s) = some s := by
  intro s
  induction s with
  | nil =>
    intro _
    have h0 : strBytes [] = [] := rfl
    rw [h0, utf8Decode]
  | cons c s ih =>
    intro hs
    obtain ⟨hcr, hclt⟩ := hs c (List.mem_cons_self c s)
    have hs2 : ∀ d ∈ s, (d < 0xD800 ∨ 0xE000 ≤ d) ∧ d < 0x10000 :=
      fun d hd => hs d (List.mem_cons_of_mem c hd)
    rw [strBytes_cons]
    by_cases h1 : c < 0x80
    · rw [utf8EncodeChar_one h1]
      simp only [List.cons_append, List.nil_append]
      rw [utf8Decode, utf8DecodeChar_enc_one h1]
      dsimp only
      simp only [Nat.sub_self, List.drop_zero]
      rw [ih hs2]
    · by_cases h2 : c < 0x800
      · rw [utf8EncodeChar_two (by omega) h2]
        simp only [List.cons_append, List.nil_append]
        rw [utf8Decode, utf8DecodeChar_enc_two (by omega) h2]
        dsimp only
        simp only [List.drop_succ_cons, List.drop_zero]
        rw [ih hs2]
      · rw [utf8EncodeChar_three (by omega) hclt]
        simp only [List.cons_append, List.nil_append]
        rw [utf8Decode, utf8DecodeChar_enc_three (by omega) hclt hcr]
        dsimp only
        simp only [List.drop_succ_cons, List.drop_zero]
        rw [ih hs2]

end MBot

namespace MBot

open MData

/-- The serializer's output: the VarInt of the character count followed
by the UTF-8 bytes. -/
theorem stringSerialize_eq (s : List Nat) (hlen : s.length ≤ 2 ^ 31 - 1) :
    stringSerialize s =
      some ((if s.length = 0 then [0] else natBytes s.length) ++ strBytes s) := by
  unfold stringSerialize
  rw [if_pos hlen]
  by_cases h0 : s.length = 0
  · rw [if_pos h0]
    unfold varSerialize
    rw [h0]
    rw [if_pos (by norm_num)]
    rfl
  · have hpos : 0 < s.length := Nat.pos_of_ne_zero h0
    have h35 : s.length < 2 ^ (7 * 5) := lt_of_le_of_lt hlen (by norm_num)
    unfold varSerialize
    rw [if_neg (by exact_mod_cast h0)]
    rw [varSerLoop_eq_natBytes 5 s.length hpos
      (natBytes_length_le 5 s.length hpos h35)]
    rw [if_neg h0]
    rfl

/-- C6: (1) for every string of valid Unicode scalars that all encode in
1–3 UTF-8 bytes, deserializing the serializer's output returns the
string (and consumes exactly its bytes); (2) whenever the string
contains a character encoding in 4 bytes, the deserializer rejects the
serialized bytes with a malformed-packet error at the 4-byte lead
byte. -/
theorem c6_string_roundtrip_and_reject :
    (∀ (s : List Nat), (∀ c ∈ s, (c < 0xD800 ∨ 0xE000 ≤ c) ∧ c < 0x10000) →
      s.length ≤ 2 ^ 31 - 1 →
      ∀ (bytes rest : List Nat) (rem : Nat),
        stringSerialize s = some bytes → bytes.length ≤ rem →
        stringDeserialize ⟨bytes ++ rest, rem⟩ =
          .ok (s, ⟨rest, rem - bytes.length⟩)) ∧
    (∀ (s1 s2 : List Nat) (c : Nat),
      (∀ d ∈ s1, d < 0x10000) → 0x10000 ≤ c → c < 0x110000 →
      (s1 ++ c :: s2).length ≤ 2 ^ 31 - 1 →
      ∀ (bytes rest : List Nat) (rem : Nat),
        stringSerialize (s1 ++ c :: s2) = some bytes → bytes.length ≤ rem →
        stringDeserialize ⟨bytes ++ rest, rem⟩ = .error .malformedPacket) := by
  constructor
  · intro s hvalid hlen bytes rest rem hser hrem
    rw [stringSerialize_eq s hlen] at hser
    have hb := Option.some.inj hser
    subst hb
    by_cases h0 : s.length = 0
    · have hs0 : s = [] := List.eq_nil_of_length_eq_zero h0
      subst hs0
      rw [if_pos (show ([] : List Nat).length = 0 from rfl)] at hrem ⊢
      unfold stringDeserialize
      have hb0 : (([0] ++ strBytes []) ++ rest : List Nat) = [0] ++ rest := rfl
      rw [hb0]
      have hr1 : 0 < rem := by
        have : (([0] ++ strBytes []) : List Nat).length = 1 := rfl
        omega
      rw [varDeserialize_zero 32 5 rest rem (by norm_num) hr1]
      dsimp only
      rw [if_pos (le_refl (0 : Int))]
      simp only [Int.toNat_zero, strReadChars]
      rw [show utf8Decode [] = some [] by rw [utf8Decode]]
      rfl
    · rw [if_neg h0] at hrem ⊢
      have hpos : 0 < s.length := Nat.pos_of_ne_zero h0
      have hv16 : ∀ c ∈ s, c < 0x10000 := fun c hc => (hvalid c hc).2
      rw [List.length_append] at hrem
      unfold stringDeserialize
      rw [List.append_assoc]
      rw [varDeserialize_natBytes 32 5 s.length (strBytes s ++ rest) rem hpos
        (by norm_num at hlen ⊢; omega) (by norm_num)
        (natBytes_length_le 5 s.length hpos (lt_of_le_of_lt hlen (by norm_num)))
        (by omega)]
      dsimp only
      rw [if_pos (Int.natCast_nonneg _), Int.toNat_natCast]
      have hread := strReadChars_prefix s hv16 0 rest
        (rem - (natBytes s.length).length) (by omega)
      simp only [Nat.add_zero, strReadChars, List.append_nil] at hread
      rw [hread]
      dsimp only
      rw [utf8Decode_strBytes s hvalid]
      have harr : rem - (natBytes s.length).length - (strBytes s).length =
          rem - (natBytes s.length ++ strBytes s).length := by
        rw [List.length_append]
        omega
      rw [harr]
  · intro s1 s2 c hval1 hc1 hc2 hlen bytes rest rem hser hrem
    rw [stringSerialize_eq _ hlen] at hser
    have hb := Option.some.inj hser
    subst hb
    have hn0 : (s1 ++ c :: s2).length ≠ 0 := by simp
    rw [if_neg hn0] at hrem ⊢
    have hcnt : (s1 ++ c :: s2).length = s1.length + (s2.length + 1) := by
      rw [List.length_append, List.length_cons]
    rw [hcnt] at hrem ⊢
    have hpos : 0 < s1.length + (s2.length + 1) := by omega
    have henc4 : (utf8EncodeChar c).length = 4 := by
      rw [utf8EncodeChar_four hc1]
      rfl
    have hsplit : strBytes (s1 ++ c :: s2) =
        strBytes s1 ++ (utf8EncodeChar c ++ strBytes s2) := by
      rw [strBytes_append, strBytes_cons]
    have hlb : (natBytes (s1.length + (s2.length + 1)) ++
          strBytes (s1 ++ c :: s2)).length =
        (natBytes (s1.length + (s2.length + 1))).length +
          ((strBytes s1).length +
            ((utf8EncodeChar c).length + (strBytes s2).length)) := by
      rw [List.length_append, hsplit, List.length_append, List.length_append]
    rw [hcnt] at hlen
    unfold stringDeserialize
    rw [List.append_assoc]
    rw [varDeserialize_natBytes 32 5 (s1.length + (s2.length + 1))
      (strBytes (s1 ++ c :: s2) ++ rest) rem hpos
      (by norm_num at hlen ⊢; omega) (by norm_num)
      (natBytes_length_le 5 _ hpos (lt_of_le_of_lt hlen (by norm_num)))
      (by omega)]
    dsimp only
    rw [if_pos (Int.natCast_nonneg _), Int.toNat_natCast]
    rw [hsplit, List.append_assoc]
    have hinner : strReadChars (s2.length + 1)
        ⟨(utf8EncodeChar c ++ strBytes s2) ++ rest,
          rem - (natBytes (s1.length + (s2.length + 1))).length -
            (strBytes s1).length⟩ = .error .malformedPacket := by
      rw [List.append_assoc]
      exact strReadChars_reject c hc1 hc2 s2.length (strBytes s2 ++ rest) _
        (by omega)
    have houter := strReadChars_prefix s1 hval1 (s2.length + 1)
      ((utf8EncodeChar c ++ strBytes s2) ++ rest)
      (rem - (natBytes (s1.length + (s2.length + 1))).length) (by omega)
    rw [hinner] at houter
    dsimp only at houter
    rw [houter]

end MBot

namespace MBot

open MData

/-- C6 witness: the string "Aα☃" (1-, 2- and 3-byte characters) decodes
back from its serialization; the string "A😀" (a 4-byte character) is
rejected as a malformed packet. -/
theorem c6_string_codec_witness :
    stringDeserialize ⟨[3, 65, 206, 177, 226, 152, 131] ++ [], 7⟩ =
        .ok ([65, 945, 9731],
          ⟨[], 7 - [3, 65, 206, 177, 226, 152, 131].length⟩) ∧
    stringDeserialize ⟨[2, 65, 240, 159, 152, 128] ++ [], 6⟩ =
        .error .malformedPacket := by
  constructor
  · exact c6_string_roundtrip_and_reject.1 [65, 945, 9731] (by decide)
      (by decide) [3, 65, 206, 177, 226, 152, 131] [] 7 (by decide)
      (by decide)
  · exact c6_string_roundtrip_and_reject.2 [65] [] 128512 (by decide)
      (by decide) (by decide) (by decide) [2, 65, 240, 159, 152, 128] [] 6
      (by decide) (by decide)

end MBot

namespace MBot

open MData

/-! ### NBT (src/nbt.rs)

A Rust `String` is its list of Unicode scalar values; floats carry raw
big-endian bit patterns (never interpreted); the `Compound` `HashMap` is
the association list in insertion order (names are unique by
construction, so the map is the list up to ordering). -/

/-- Model of the `Nbt` tree. -/
inductive Nbt where
  | nbtEnd
  | byte (v : Int)
  | short (v : Int)
  | int (v : Int)
  | long (v : Int)
  | float (bits : Nat)
  | double (bits : Nat)
  | byteArray (data : List Int)
  | string (s : List Nat)
  | list (items : List Nbt)
  | compound (entries : List (List Nat × Nbt))
  | intArray (data : List Int)
  | longArray (data : List Int)

/-- The `matches!(value, Self::End)` test. -/
def Nbt.isEnd : Nbt → Bool
  | .nbtEnd => true
  | _ => false

/-- `from_be_bytes`: the big-endian value of a byte list. -/
def beNat (bytes : List Nat) : Nat := bytes.foldl (fun a b => a * 256 + b) 0

/-- The `DeserializeNbr!` numeric reader: `k` big-endian bytes. -/
def numDeserialize (k : Nat) (ds : DataStream) :
    Except DeErr (Nat × DataStream) :=
  match dsReadExact k ds with
  | .error e => .error e
  | .ok (bs, ds1) => .ok (beNat bs, ds1)

/-- Model of `Nbt::deserialize_string`: u16 length, raw bytes,
`from_utf8`. -/
def nbtString (ds : DataStream) : Except DeErr (List Nat × DataStream) :=
  match numDeserialize 2 ds with
  | .error e => .error e
  | .ok (len, ds1) =>
    match dsReadExact len ds1 with
    | .error e => .error e
    | .ok (bs, ds2) =>
      match utf8Decode bs with
      | none => .error (.nbtErr .invalidUtf8)
      | some s => .ok (s, ds2)

/-- The element loop of `Nbt::deserialize_array` for a numeric element
type of `k` bytes interpreted by `cast`. -/
def nbtNumElems (k : Nat) (cast : Nat → Int) :
    Nat → DataStream → Except DeErr (List Int × DataStream)
  | 0, ds => .ok ([], ds)
  | n + 1, ds =>
    match numDeserialize k ds with
    | .error e => .error e
    | .ok (v, ds1) =>
      match nbtNumElems k cast n ds1 with
      | .error e => .error e
      | .ok (vs, ds2) => .ok (cast v :: vs, ds2)

/-- Model of `Nbt::deserialize_array`: i32 length (negative rejected),
then the elements. -/
def nbtArray (k : Nat) (cast : Nat → Int) (ds : DataStream) :
    Except DeErr (List Int × DataStream) :=
  match numDeserialize 4 ds with
  | .error e => .error e
  | .ok (lenPat, ds1) =>
    let len := toSigned 32 lenPat
    if len < 0 then .error (.nbtErr (.negativeArrayLength len))
    else nbtNumElems k cast len.toNat ds1

mutual

/-- Model of `Nbt::deserialize_by_id`.  `none` is fuel exhaustion (the
Rust recursion is bounded only by the shrinking stream). -/
def nbtById : Nat → Nat → DataStream → Option (Except DeErr (Nbt × DataStream))
  | 0, _, _ => none
  | fuel + 1, id, ds =>
    if id = 0 then some (.ok (.nbtEnd, ds))
    else if id = 1 then
      some (match numDeserialize 1 ds with
        | .error e => .error e
        | .ok (v, ds1) => .ok (.byte (toSigned 8 v), ds1))
    else if id = 2 then
      some (match numDeserialize 2 ds with
        | .error e => .error e
        | .ok (v, ds1) => .ok (.short (toSigned 16 v), ds1))
    else if id = 3 then
      some (match numDeserialize 4 ds with
        | .error e => .error e
        | .ok (v, ds1) => .ok (.int (toSigned 32 v), ds1))
    else if id = 4 then
      some (match numDeserialize 8 ds with
        | .error e => .error e
        | .ok (v, ds1) => .ok (.long (toSigned 64 v), ds1))
    else if id = 5 then
      some (match numDeserialize 4 ds with
        | .error e => .error e
        | .ok (v, ds1) => .ok (.float v, ds1))
    else if id = 6 then
      some (match numDeserialize 8 ds with
        | .error e => .error e
        | .ok (v, ds1) => .ok (.double v, ds1))
    else if id = 7 then
      some (match nbtArray 1 (fun v => (v : Int)) ds with
        | .error e => .error e
        | .ok (vs, ds1) => .ok (.byteArray vs, ds1))
    else if id = 8 then
      some (match nbtString ds with
        | .error e => .error e
        | .ok (s, ds1) => .ok (.string s, ds1))
    else if id = 9 then
      match nbtList fuel ds with
      | none => none
      | some (.error e) => some (.error e)
      | some (.ok (vs, ds1)) => some (.ok (.list vs, ds1))
    else if id = 10 then
      match nbtCompound fuel ds [] with
      | none => none
      | some (.error e) => some (.error e)
      | some (.ok (m, ds1)) => some (.ok (.compound m, ds1))
    else if id = 11 then
      some (match nbtArray 4 (toSigned 32) ds with
        | .error e => .error e
        | .ok (vs, ds1) => .ok (.intArray vs, ds1))
    else if id = 12 then
      some (match nbtArray 8 (toSigned 64) ds with
        | .error e => .error e
        | .ok (vs, ds1) => .ok (.longArray vs, ds1))
    else some (.error (.nbtErr (.unknownType id)))
termination_by fuel _ _ => (fuel, 0, 0)

/-- Model of `Nbt::deserialize_list`: element type id, i32 length
(negative rejected, `TAG_End` rejected for non-empty lists), then the
elements. -/
def nbtList : Nat → DataStream → Option (Except DeErr (List Nbt × DataStream))
  | fuel, ds =>
    match numDeserialize 1 ds with
    | .error e => some (.error e)
    | .ok (typeId, ds1) =>
      match numDeserialize 4 ds1 with
      | .error e => some (.error e)
      | .ok (lenPat, ds2) =>
        let len := toSigned 32 lenPat
        if len < 0 then some (.error (.nbtErr (.negativeListLength len)))
        else if len = 0 then some (.ok ([], ds2))
        else if typeId = 0 then some (.error (.nbtErr .endInList))
        else nbtListElems fuel typeId len.toNat ds2
termination_by fuel _ => (fuel, 2, 0)

/-- The element loop of `Nbt::deserialize_list`. -/
def nbtListElems : Nat → Nat → Nat → DataStream →
    Option (Except DeErr (List Nbt × DataStream))
  | _, _, 0, ds => some (.ok ([], ds))
  | fuel, typeId, n + 1, ds =>
    match nbtById fuel typeId ds with
    | none => none
    | some (.error e) => some (.error e)
    | some (.ok (v, ds1)) =>
      match nbtListElems fuel typeId n ds1 with
      | none => none
      | some (.error e) => some (.error e)
      | some (.ok (vs, ds2)) => some (.ok (v :: vs, ds2))
termination_by fuel _ n _ => (fuel, 1, n)

/-- Model of `Nbt::deserialize_compound`: read a tag id, a name and a
value; a `TAG_End` value returns the accumulated map (the terminator
entry is not stored); a value under an already-present name is the
`SameName` hard error; otherwise the entry is inserted and the loop
continues. -/
def nbtCompound : Nat → DataStream → List (List Nat × Nbt) →
    Option (Except DeErr (List (List Nat × Nbt) × DataStream))
  | 0, _, _ => none
  | fuel + 1, ds, acc =>
    match numDeserialize 1 ds with
    | .error e => some (.error e)
    | .ok (id, ds1) =>
      match nbtString ds1 with
      | .error e => some (.error e)
      | .ok (name, ds2) =>
        match nbtById fuel id ds2 with
        | none => none
        | some (.error e) => some (.error e)
        | some (.ok (value, ds3)) =>
          if value.isEnd then some (.ok (acc, ds3))
          else if (acc.find? (fun kv => kv.1 = name)).isSome then
            some (.error (.nbtErr (.sameName name)))
          else nbtCompound fuel ds3 (acc ++ [(name, value)])
termination_by fuel _ _ => (fuel, 1, 0)

end

/-- Model of `<Nbt as Deserialize>::deserialize`: the root must be a
compound. -/
def nbtDeserialize (fuel : Nat) (ds : DataStream) :
    Option (Except DeErr (Nbt × DataStream)) :=
  match numDeserialize 1 ds with
  | .error e => some (.error e)
  | .ok (id, ds1) =>
    if id ≠ 10 then some (.error (.nbtErr .malformedRoot))
    else
      match nbtCompound fuel ds1 [] with
      | none => none
      | some (.error e) => some (.error e)
      | some (.ok (root, ds2)) => some (.ok (.compound root, ds2))

end MBot

namespace MBot

open MData

theorem beNat_one (b : Nat) : beNat [b] = b := by
  simp [beNat]

theorem beNat_two (a b : Nat) : beNat [a, b] = a * 256 + b := by
  simp [beNat]

theorem numDeserialize_one (b : Nat) (tl : List Nat) (rem : Nat)
    (h : 1 ≤ rem) :
    numDeserialize 1 ⟨b :: tl, rem⟩ = .ok (b, ⟨tl, rem - 1⟩) := by
  unfold numDeserialize
  simp only [dsReadExact_cons _ _ _ h]
  rw [beNat_one]

theorem numDeserialize_two (a b : Nat) (tl : List Nat) (rem : Nat)
    (h : 2 ≤ rem) :
    numDeserialize 2 ⟨a :: b :: tl, rem⟩ =
      .ok (a * 256 + b, ⟨tl, rem - 2⟩) := by
  unfold numDeserialize
  simp only [dsReadExact_two _ _ _ _ h]
  rw [beNat_two]

theorem nbtString_wire (nb name tail : List Nat) (rem : Nat)
    (hlen : nb.length < 2 ^ 16) (hdec : utf8Decode nb = some name)
    (hrem : 2 + nb.length ≤ rem) :
    nbtString ⟨(nb.length / 256) :: (nb.length % 256) :: (nb ++ tail), rem⟩ =
      .ok (name, ⟨tail, rem - (2 + nb.length)⟩) := by
  unfold nbtString
  simp only [numDeserialize_two _ _ _ _ (show 2 ≤ rem by omega)]
  have hv : nb.length / 256 * 256 + nb.length % 256 = nb.length := by omega
  rw [hv]
  have hre : dsReadExact nb.length ⟨nb ++ tail, rem - 2⟩ =
      .ok (nb, ⟨tail, rem - 2 - nb.length⟩) := by
    unfold dsReadExact
    rw [if_pos ⟨by simp only []; omega, by simp⟩]
    rw [List.take_left, List.drop_left]
  simp only [hre]
  rw [hdec]
  have harr : rem - 2 - nb.length = rem - (2 + nb.length) := by omega
  rw [harr]

theorem nbtById_end (fuel : Nat) (ds : DataStream) (h : 1 ≤ fuel) :
    nbtById fuel 0 ds = some (.ok (.nbtEnd, ds)) := by
  obtain ⟨f, rfl⟩ : ∃ f, fuel = f + 1 := ⟨fuel - 1, by omega⟩
  rw [nbtById]
  rw [if_pos rfl]

theorem nbtCompound_term (fuel : Nat) (acc : List (List Nat × Nbt))
    (rest : List Nat) (rem : Nat) (hf : 2 ≤ fuel) (hr : 3 ≤ rem) :
    nbtCompound fuel ⟨0 :: 0 :: 0 :: rest, rem⟩ acc =
      some (.ok (acc, ⟨rest, rem - 3⟩)) := by
  obtain ⟨f, rfl⟩ : ∃ f, fuel = f + 1 := ⟨fuel - 1, by omega⟩
  rw [nbtCompound]
  simp only [numDeserialize_one _ _ _ (show 1 ≤ rem by omega)]
  have hstr := nbtString_wire [] [] rest (rem - 1) (by norm_num)
    (by rw [utf8Decode]) (by simp only [List.length_nil]; omega)
  simp only [List.length_nil, Nat.zero_div, Nat.zero_mod, List.nil_append]
    at hstr
  simp only [hstr]
  simp only [nbtById_end f _ (show 1 ≤ f by omega)]
  rw [if_pos (show Nbt.nbtEnd.isEnd = true from rfl)]
  have harr : rem - 1 - (2 + 0) = rem - 3 := by omega
  rw [harr]

end MBot

namespace MBot

open MData

/-- One wire entry of a compound: a tag id, a u16-length-prefixed UTF-8
name and the value's bytes.  This is the reference wire form the claim
quantifies over; `GoodEntry` states that the pieces decode. -/
structure NbtEntryW where
  tagId : Nat
  nameBytes : List Nat
  name : List Nat
  value : Nbt
  valBytes : List Nat
  fuelNeed : Nat

/-- The bytes of one entry: tag id, big-endian u16 name length, name
bytes, value bytes. -/
def entryWire (e : NbtEntryW) : List Nat :=
  e.tagId :: (e.nameBytes.length / 256) :: (e.nameBytes.length % 256) ::
    (e.nameBytes ++ e.valBytes)

/-- The concatenated bytes of a list of entries. -/
def wireOf (es : List NbtEntryW) : List Nat := (es.map entryWire).flatten

/-- The entry's name fits a u16, its name bytes decode to its name, its
value is not the terminator, and its value bytes decode to its value by
`deserialize_by_id` at every sufficient fuel, consuming exactly them. -/
def GoodEntry (e : NbtEntryW) : Prop :=
  e.nameBytes.length < 2 ^ 16 ∧
  utf8Decode e.nameBytes = some e.name ∧
  e.value.isEnd = false ∧
  ∀ f, e.fuelNeed ≤ f → ∀ rest rem, e.valBytes.length ≤ rem →
    nbtById f e.tagId ⟨e.valBytes ++ rest, rem⟩ =
      some (.ok (e.value, ⟨rest, rem - e.valBytes.length⟩))

theorem wireOf_cons (e : NbtEntryW) (es : List NbtEntryW) :
    wireOf (e :: es) = entryWire e ++ wireOf es := by
  unfold wireOf
  rw [List.map_cons, List.flatten_cons]

theorem entryWire_length (e : NbtEntryW) :
    (entryWire e).length = 3 + (e.nameBytes.length + e.valBytes.length) := by
  simp only [entryWire, List.length_cons, List.length_append]
  omega

/-- Running `deserialize_compound` over well-formed entries with fresh,
pairwise-distinct names followed by the terminator: every entry is
stored in order, the terminator is not stored, and exactly the wire
bytes are consumed. -/
theorem nbtCompound_distinct :
    ∀ (es : List NbtEntryW) (fuel : Nat) (acc : List (List Nat × Nbt))
      (rest : List Nat) (rem : Nat),
      (∀ e ∈ es, GoodEntry e) →
      (∀ e ∈ es, e.fuelNeed + es.length + 1 ≤ fuel) →
      es.length + 2 ≤ fuel →
      (wireOf es).length + 3 ≤ rem →
      (acc.map Prod.fst ++ es.map NbtEntryW.name).Nodup →
      nbtCompound fuel ⟨wireOf es ++ (0 :: 0 :: 0 :: rest), rem⟩ acc =
        some (.ok (acc ++ es.map (fun e => (e.name, e.value)),
          ⟨rest, rem - ((wireOf es).length + 3)⟩)) := by
  intro es
  induction es with
  | nil =>
    intro fuel acc rest rem hgood hfe hf hr hnod
    have hw : wireOf [] = ([] : List Nat) := rfl
    rw [hw] at hr ⊢
    simp only [List.length_nil] at hr
    rw [List.nil_append]
    rw [nbtCompound_term fuel acc rest rem (by omega) (by omega)]
    simp
  | cons e es ih =>
    intro fuel acc rest rem hgood hfe hf hr hnod
    obtain ⟨hnl, hdec, hnotEnd, hdecode⟩ := hgood e (List.mem_cons_self e es)
    have hgood2 : ∀ e' ∈ es, GoodEntry e' := fun e' he' =>
      hgood e' (List.mem_cons_of_mem e he')
    obtain ⟨f, rfl⟩ : ∃ f, fuel = f + 1 := ⟨fuel - 1, by omega⟩
    rw [wireOf_cons] at hr ⊢
    rw [List.length_append, entryWire_length] at hr
    rw [List.append_assoc]
    have hbuf : entryWire e ++ (wireOf es ++ (0 :: 0 :: 0 :: rest)) =
        e.tagId :: ((e.nameBytes.length / 256) ::
          (e.nameBytes.length % 256) :: (e.nameBytes ++
            (e.valBytes ++ (wireOf es ++ (0 :: 0 :: 0 :: rest))))) := by
      simp [entryWire, List.append_assoc]
    rw [hbuf]
    rw [nbtCompound]
    simp only [numDeserialize_one _ _ _ (show 1 ≤ rem by omega)]
    simp only [nbtString_wire e.nameBytes e.name
      (e.valBytes ++ (wireOf es ++ (0 :: 0 :: 0 :: rest))) (rem - 1)
      hnl hdec (by omega)]
    have hfuelneed : e.fuelNeed ≤ f := by
      have := hfe e (List.mem_cons_self e es)
      simp only [List.length_cons] at this
      omega
    simp only [hdecode f hfuelneed (wireOf es ++ (0 :: 0 :: 0 :: rest))
      (rem - 1 - (2 + e.nameBytes.length)) (by omega)]
    rw [if_neg (by rw [hnotEnd]; exact Bool.false_ne_true)]
    have hmem : e.name ∉ acc.map Prod.fst := by
      intro hmem
      rw [List.nodup_append] at hnod
      exact hnod.2.2 hmem (List.mem_cons_self _ _)
    have hfind : acc.find? (fun kv => kv.1 = e.name) = none := by
      rw [List.find?_eq_none]
      intro kv hkv
      simp only [decide_eq_true_eq]
      intro heq
      exact hmem (List.mem_map.mpr ⟨kv, hkv, by rw [heq]⟩)
    rw [if_neg (by rw [hfind]; simp)]
    have hnod2 : ((acc ++ [(e.name, e.value)]).map Prod.fst ++
        es.map NbtEntryW.name).Nodup := by
      have hsame : (acc ++ [(e.name, e.value)]).map Prod.fst ++
          es.map NbtEntryW.name =
          acc.map Prod.fst ++ (e.name :: es.map NbtEntryW.name) := by
        simp
      rw [hsame]
      simpa using hnod
    rw [ih f (acc ++ [(e.name, e.value)]) rest
      (rem - 1 - (2 + e.nameBytes.length) - e.valBytes.length)
      hgood2
      (by
        intro e' he'
        have := hfe e' (List.mem_cons_of_mem e he')
        simp only [List.length_cons] at this
        omega)
      (by simp only [List.length_cons] at hf; omega)
      (by omega)
      hnod2]
    have hlist : (acc ++ [(e.name, e.value)]) ++
        es.map (fun e => (e.name, e.value)) =
        acc ++ List.map (fun e => (e.name, e.value)) (e :: es) := by
      simp
    rw [hlist]
    have harr : rem - 1 - (2 + e.nameBytes.length) - e.valBytes.length -
        ((wireOf es).length + 3) =
        rem - ((entryWire e ++ wireOf es).length + 3) := by
      rw [List.length_append, entryWire_length]
      omega
    rw [harr]

end MBot

namespace MBot

open MData

/-- Running `deserialize_compound` over well-formed entries whose names
contain a duplicate (relative to the already-accumulated distinct names)
returns the `SameName` hard error. -/
theorem nbtCompound_duplicate :
    ∀ (es : List NbtEntryW) (fuel : Nat) (acc : List (List Nat × Nbt))
      (rest : List Nat) (rem : Nat),
      (∀ e ∈ es, GoodEntry e) →
      (∀ e ∈ es, e.fuelNeed + es.length + 1 ≤ fuel) →
      es.length + 2 ≤ fuel →
      (wireOf es).length + 3 ≤ rem →
      (acc.map Prod.fst).Nodup →
      ¬ (acc.map Prod.fst ++ es.map NbtEntryW.name).Nodup →
      ∃ n, nbtCompound fuel ⟨wireOf es ++ (0 :: 0 :: 0 :: rest), rem⟩ acc =
        some (.error (.nbtErr (.sameName n))) := by
  intro es
  induction es with
  | nil =>
    intro fuel acc rest rem hgood hfe hf hr haccd hndup
    rw [List.map_nil, List.append_nil] at hndup
    exact absurd haccd hndup
  | cons e es ih =>
    intro fuel acc rest rem hgood hfe hf hr haccd hndup
    obtain ⟨hnl, hdec, hnotEnd, hdecode⟩ := hgood e (List.mem_cons_self e es)
    have hgood2 : ∀ e' ∈ es, GoodEntry e' := fun e' he' =>
      hgood e' (List.mem_cons_of_mem e he')
    obtain ⟨f, rfl⟩ : ∃ f, fuel = f + 1 := ⟨fuel - 1, by omega⟩
    rw [wireOf_cons] at hr ⊢
    rw [List.length_append, entryWire_length] at hr
    rw [List.append_assoc]
    have hbuf : entryWire e ++ (wireOf es ++ (0 :: 0 :: 0 :: rest)) =
        e.tagId :: ((e.nameBytes.length / 256) ::
          (e.nameBytes.length % 256) :: (e.nameBytes ++
            (e.valBytes ++ (wireOf es ++ (0 :: 0 :: 0 :: rest))))) := by
      simp [entryWire, List.append_assoc]
    rw [hbuf]
    have hfuelneed : e.fuelNeed ≤ f := by
      have := hfe e (List.mem_cons_self e es)
      simp only [List.length_cons] at this
      omega
    by_cases hmem : e.name ∈ acc.map Prod.fst
    · refine ⟨e.name, ?_⟩
      rw [nbtCompound]
      simp only [numDeserialize_one _ _ _ (show 1 ≤ rem by omega)]
      simp only [nbtString_wire e.nameBytes e.name
        (e.valBytes ++ (wireOf es ++ (0 :: 0 :: 0 :: rest))) (rem - 1)
        hnl hdec (by omega)]
      simp only [hdecode f hfuelneed (wireOf es ++ (0 :: 0 :: 0 :: rest))
        (rem - 1 - (2 + e.nameBytes.length)) (by omega)]
      rw [if_neg (by rw [hnotEnd]; exact Bool.false_ne_true)]
      have hfind : (acc.find? (fun kv => kv.1 = e.name)).isSome = true := by
        rw [List.find?_isSome]
        obtain ⟨kv, hkv, hkveq⟩ := List.mem_map.mp hmem
        exact ⟨kv, hkv, by simp [hkveq]⟩
      rw [if_pos hfind]
    · have haccd2 : ((acc ++ [(e.name, e.value)]).map Prod.fst).Nodup := by
        simp only [List.map_append, List.map_cons, List.map_nil]
        rw [List.nodup_append]
        refine ⟨haccd, List.nodup_singleton _, ?_⟩
        intro a ha hb
        simp only [List.mem_singleton] at hb
        subst hb
        exact hmem ha
      have hndup2 : ¬ ((acc ++ [(e.name, e.value)]).map Prod.fst ++
          es.map NbtEntryW.name).Nodup := by
        have hsame : (acc ++ [(e.name, e.value)]).map Prod.fst ++
            es.map NbtEntryW.name =
            acc.map Prod.fst ++ (e.name :: es.map NbtEntryW.name) := by
          simp
        rw [hsame]
        intro hcon
        apply hndup
        simpa using hcon
      obtain ⟨n, hn⟩ := ih f (acc ++ [(e.name, e.value)]) rest
        (rem - 1 - (2 + e.nameBytes.length) - e.valBytes.length)
        hgood2
        (by
          intro e' he'
          have := hfe e' (List.mem_cons_of_mem e he')
          simp only [List.length_cons] at this
          omega)
        (by simp only [List.length_cons] at hf; omega)
        (by omega)
        haccd2 hndup2
      refine ⟨n, ?_⟩
      rw [nbtCompound]
      simp only [numDeserialize_one _ _ _ (show 1 ≤ rem by omega)]
      simp only [nbtString_wire e.nameBytes e.name
        (e.valBytes ++ (wireOf es ++ (0 :: 0 :: 0 :: rest))) (rem - 1)
        hnl hdec (by omega)]
      simp only [hdecode f hfuelneed (wireOf es ++ (0 :: 0 :: 0 :: rest))
        (rem - 1 - (2 + e.nameBytes.length)) (by omega)]
      rw [if_neg (by rw [hnotEnd]; exact Bool.false_ne_true)]
      have hfind : acc.find? (fun kv => kv.1 = e.name) = none := by
        rw [List.find?_eq_none]
        intro kv hkv
        simp only [decide_eq_true_eq]
        intro heq
        exact hmem (List.mem_map.mpr ⟨kv, hkv, by rw [heq]⟩)
      rw [if_neg (by rw [hfind]; simp)]
      exact hn

end MBot

namespace MBot

open MData

/-- C7: over any well-formed wire entry sequence followed by the
terminator entry: two entries sharing a name make the compound decoder
return the `SameName` hard error (no mapping); pairwise-distinct names
decode to exactly the entries, with the terminator entry not stored. -/
theorem c7_compound_duplicate_and_terminator :
    ∀ (es : List NbtEntryW) (fuel : Nat) (rest : List Nat) (rem : Nat),
      (∀ e ∈ es, GoodEntry e) →
      (∀ e ∈ es, e.fuelNeed + es.length + 1 ≤ fuel) →
      es.length + 2 ≤ fuel →
      (wireOf es).length + 3 ≤ rem →
      (¬ (es.map NbtEntryW.name).Nodup →
        ∃ n, nbtCompound fuel ⟨wireOf es ++ (0 :: 0 :: 0 :: rest), rem⟩ [] =
          some (.error (.nbtErr (.sameName n)))) ∧
      ((es.map NbtEntryW.name).Nodup →
        nbtCompound fuel ⟨wireOf es ++ (0 :: 0 :: 0 :: rest), rem⟩ [] =
          some (.ok (es.map (fun e => (e.name, e.value)),
            ⟨rest, rem - ((wireOf es).length + 3)⟩))) := by
  intro es fuel rest rem hgood hfe hf hr
  constructor
  · intro hdup
    exact nbtCompound_duplicate es fuel [] rest rem hgood hfe hf hr
      (by simp) (by simpa using hdup)
  · intro hdist
    have h := nbtCompound_distinct es fuel [] rest rem hgood hfe hf hr
      (by simpa using hdist)
    simpa using h

/-- `deserialize_by_id` on the Byte tag reads one byte. -/
theorem nbtById_byte (f : Nat) (hf : 1 ≤ f) (b : Nat) (rest : List Nat)
    (rem : Nat) (hrem : 1 ≤ rem) :
    nbtById f 1 ⟨b :: rest, rem⟩ =
      some (.ok (.byte (toSigned 8 b), ⟨rest, rem - 1⟩)) := by
  obtain ⟨f2, rfl⟩ : ∃ f2, f = f2 + 1 := ⟨f - 1, by omega⟩
  rw [nbtById]
  rw [if_neg (by norm_num), if_pos rfl]
  simp only [numDeserialize_one _ _ _ hrem]

/-- C7 witness: two Byte entries both named "a" are rejected with the
`SameName` error; Byte entries named "a" and "b" decode to exactly those
two entries, the terminator not stored. -/
theorem c7_compound_witness :
    (∃ n, nbtCompound 5
        ⟨wireOf [⟨1, [97], [97], .byte 5, [5], 1⟩,
            ⟨1, [97], [97], .byte 7, [7], 1⟩] ++ (0 :: 0 :: 0 :: []), 13⟩ [] =
        some (.error (.nbtErr (.sameName n)))) ∧
    nbtCompound 5
        ⟨wireOf [⟨1, [97], [97], .byte 5, [5], 1⟩,
            ⟨1, [98], [98], .byte 7, [7], 1⟩] ++ (0 :: 0 :: 0 :: []), 13⟩ [] =
      some (.ok ([([97], .byte 5), ([98], .byte 7)], ⟨[], 0⟩)) := by
  have hts : ∀ v : Nat, v < 128 → toSigned 8 v = (v : Int) := by
    intro v hv
    unfold toSigned
    rw [if_pos (by norm_num; omega)]
  have hge : ∀ (nb v : Nat), nb < 128 → v < 128 →
      GoodEntry ⟨1, [nb], [nb], .byte (v : Int), [v], 1⟩ := by
    intro nb v hnb hv
    refine ⟨by norm_num, ?_, rfl, ?_⟩
    · rw [utf8Decode, utf8DecodeChar_enc_one hnb]
      dsimp only
      simp only [Nat.sub_self, List.drop_zero]
      rw [utf8Decode]
    · intro f hf rest rem hrem
      dsimp only at hf hrem ⊢
      simp only [List.singleton_append, List.length_singleton] at hrem ⊢
      rw [nbtById_byte f hf v rest rem hrem]
      rw [hts v hv]
  constructor
  · exact (c7_compound_duplicate_and_terminator
      [⟨1, [97], [97], .byte 5, [5], 1⟩, ⟨1, [97], [97], .byte 7, [7], 1⟩]
      5 [] 13
      (by
        intro e he
        simp only [List.mem_cons, List.not_mem_nil, or_false] at he
        rcases he with rfl | rfl
        · exact hge 97 5 (by norm_num) (by norm_num)
        · exact hge 97 7 (by norm_num) (by norm_num))
      (by decide) (by decide) (by decide)).1 (by decide)
  · exact (c7_compound_duplicate_and_terminator
      [⟨1, [97], [97], .byte 5, [5], 1⟩, ⟨1, [98], [98], .byte 7, [7], 1⟩]
      5 [] 13
      (by
        intro e he
        simp only [List.mem_cons, List.not_mem_nil, or_false] at he
        rcases he with rfl | rfl
        · exact hge 97 5 (by norm_num) (by norm_num)
        · exact hge 98 7 (by norm_num) (by norm_num))
      (by decide) (by decide) (by decide)).2 (by decide)

end MBot
